import Mathlib

/-!
Shallow embedding of the `pkg audit` matching engine (src/pkg/audit.c):
advisory parsing (`parse_pattern`, `parse_db`), index construction
(`str_noglob_len`, `audit_entry_compare`, `preprocess_db`) and vulnerability
querying (`match_version`, `is_vulnerable`), with theorems checking the
natural-language specification against the code.

C strings are modelled as `List Nat` of byte values without the terminating
NUL; an embedded 0 byte acts as a terminator for the string functions,
mirroring C.  The external three-way version comparator `pkg_version_cmp` is
an opaque parameter `cmp` (verdicts -1/0/1 for Less/Equal/Greater); libc
`fnmatch` is modelled from the spec (standard shell glob).  libc `qsort`
gives no guarantee on the relative order of elements that compare equal; it
is modelled by the stable `List.insertionSort` with the same comparator.
-/

namespace PkgAudit

set_option maxRecDepth 40000

/-- Byte string: the contents of a C `char *`, without the terminating NUL. -/
abbrev Bytes : Type := List Nat

/-- Byte representation of a Lean string literal. -/
def str (s : String) : Bytes := s.data.map Char.toNat

/-- Comparison type code `#define EQ 1`. -/
def EQ : Nat := 1

/-- Comparison type code `#define LT 2`. -/
def LT : Nat := 2

/-- Comparison type code `#define LTE 3`. -/
def LTE : Nat := 3

/-- Comparison type code `#define GT 4`. -/
def GT : Nat := 4

/-- Comparison type code `#define GTE 5`. -/
def GTE : Nat := 5

/-- `struct version_entry`: a version bound.  `version = none` models a NULL
pointer (absent bound); `type = 0` is the `calloc` zero state. -/
structure version_entry where
  version : Option Bytes
  type : Nat
deriving DecidableEq, Repr, Inhabited

/-- `struct audit_entry`: one parsed advisory line. -/
structure audit_entry where
  pkgname : Bytes
  v1 : version_entry
  v2 : version_entry
  url : Option Bytes
  desc : Option Bytes
deriving DecidableEq, Repr, Inhabited

/-- C `strncmp` on byte strings, sign-normalised to -1/0/1.  A position past
the end of a list reads as the NUL byte; comparison stops at the first
difference or at a NUL present in both strings. -/
def strncmp : Bytes → Bytes → Nat → Int
  | _, _, 0 => 0
  | [], [], _ + 1 => 0
  | [], b :: _, _ + 1 => if b = 0 then 0 else -1
  | a :: _, [], _ + 1 => if a = 0 then 0 else 1
  | a :: as, b :: bs, n + 1 =>
    if a ≠ b then (if a < b then -1 else 1)
    else if a = 0 then 0 else strncmp as bs n

/-- C `strcmp`, sign-normalised to -1/0/1. -/
def strcmp : Bytes → Bytes → Int
  | [], [] => 0
  | [], b :: _ => if b = 0 then 0 else -1
  | a :: _, [] => if a = 0 then 0 else 1
  | a :: as, b :: bs =>
    if a ≠ b then (if a < b then -1 else 1)
    else if a = 0 then 0 else strcmp as bs

/-- C `strndup(s + start, n)`: copy at most `n` bytes starting at offset
`start`, stopping at the first NUL. -/
def strndup (buf : Bytes) (start n : Nat) : Bytes :=
  ((buf.drop start).take n).takeWhile (fun c => c ≠ 0)

/-- Whether a byte is neither NUL nor one of the globbing characters
`* ? [ { \` of `str_noglob_len`. -/
def noglob (c : Nat) : Bool :=
  !(c == 0 || c == 42 || c == 63 || c == 91 || c == 123 || c == 92)

/-- `str_noglob_len`: length of the largest prefix without globbing
characters (the loop stops at NUL or at `* ? [ { \`). -/
def str_noglob_len (s : Bytes) : Nat := (s.takeWhile noglob).length

/-- Which `char **dest` slot `parse_pattern` is currently writing into. -/
inductive Dest where
  | pkgname
  | v1version
  | v2version
deriving DecidableEq, Repr

/-- Loop state of `parse_pattern`: the fields built so far plus the `start`,
`dest` and `v` cursor variables (`vslot = false` means `v = &e->v1`). -/
structure PPState where
  pkgname : Bytes
  v1 : version_entry
  v2 : version_entry
  start : Nat
  dest : Option Dest
  vslot : Bool
deriving DecidableEq, Repr

/-- `*dest = strndup(...)`: store a parsed string into the current slot. -/
def ppStore (st : PPState) (value : Bytes) : PPState :=
  match st.dest with
  | some .pkgname => { st with pkgname := value }
  | some .v1version => { st with v1 := { st.v1 with version := some value } }
  | some .v2version => { st with v2 := { st.v2 with version := some value } }
  | none => st

/-- `v->type = type; next_dest = &v->version; v = &e->v2;` — returns the
updated state together with the slot `next_dest` points at. -/
def ppSetType (st : PPState) (t : Nat) : PPState × Dest :=
  if st.vslot then ({ st with v2 := { st.v2 with type := t } }, .v2version)
  else ({ st with v1 := { st.v1 with type := t }, vslot := true }, .v1version)

/-- Read `pattern[i]` (0 past the end, like the buffer's terminating NUL). -/
def getb (buf : Bytes) (i : Nat) : Nat := buf.getD i 0

/-- The scanning loop of `parse_pattern`, structurally recursive on fuel
(each iteration advances `i` by at least one, so fuel `len` suffices). -/
def parse_pattern_go (buf : Bytes) (len : Nat) : Nat → Nat → PPState → PPState
  | 0, _, st => st
  | fuel + 1, i, st =>
    if i < len then
      let c := getb buf i
      let ty : Nat :=
        if c = 61 then EQ
        else if c = 60 then (if getb buf (i + 1) = 61 then LTE else LT)
        else if c = 62 then (if getb buf (i + 1) = 61 then GTE else GT)
        else 0
      let skipnext : Nat :=
        if (c = 60 ∨ c = 62) ∧ getb buf (i + 1) = 61 then 1 else 0
      let stepped :=
        if ty ≠ 0 then
          let p := ppSetType st ty
          (p.1, some p.2)
        else (st, (none : Option Dest))
      let st1 := stepped.1
      let next_dest := stepped.2
      if next_dest.isSome ∨ i = len - 1 then
        let st2 := ppStore st1 (strndup buf st1.start (i - st1.start))
        let i2 := i + skipnext
        parse_pattern_go buf len fuel (i2 + 1)
          { st2 with start := i2 + 1, dest := next_dest }
      else
        parse_pattern_go buf len fuel (i + 1) st1
    else st

/-- `parse_pattern(e, pattern, len)`.  NOTE (faithful to the code): the
caller passes the length of the WHOLE line, not of the first field, so the
scan runs past the NUL that `strsep` put over the first `|`. -/
def parse_pattern (e : audit_entry) (buf : Bytes) (len : Nat) : audit_entry :=
  let st := parse_pattern_go buf len len 0
    { pkgname := e.pkgname, v1 := e.v1, v2 := e.v2, start := 0,
      dest := some .pkgname, vslot := false }
  { e with pkgname := st.pkgname, v1 := st.v1, v2 := st.v2 }

/-- Field splitting performed by the `strsep(&line, "|")` loop: the list of
`|`-separated fields (always at least one, fields may be empty). -/
def strsep_fields : Bytes → List Bytes
  | [] => [[]]
  | c :: rest =>
    if c = 124 then [] :: strsep_fields rest
    else
      match strsep_fields rest with
      | f :: fs => (c :: f) :: fs
      | [] => [[c]]

/-- The line buffer as `parse_pattern` sees it: the first `strsep` call has
replaced the first `|` (if any) with a NUL byte. -/
def nul_first_sep : Bytes → Bytes
  | [] => []
  | c :: rest => if c = 124 then 0 :: rest else c :: nul_first_sep rest

/-- Processing of one non-comment line by `parse_db`: `calloc` a zeroed
entry, split the line into fields, run `parse_pattern` on field 0 (passing
the whole line length), `strdup` fields 1 and 2 into url and desc; extra
fields are ignored (with a warning in C). -/
def parse_line (line : Bytes) : audit_entry :=
  let fields := strsep_fields line
  let e0 : audit_entry :=
    { pkgname := [], v1 := { version := none, type := 0 },
      v2 := { version := none, type := 0 }, url := none, desc := none }
  let e1 := parse_pattern e0 (nul_first_sep line) line.length
  { e1 with url := fields.get? 1, desc := fields.get? 2 }

/-- The `getline` loop of `parse_db`: lines starting with `#` are skipped,
every other line is parsed and inserted at the HEAD of the singly-linked
list (`SLIST_INSERT_HEAD`), so the result is in reverse file order. -/
def parse_db_lines (lines : List Bytes) : List audit_entry :=
  lines.foldl (fun h line => if line.headD 0 = 35 then h else parse_line line :: h) []

/-- `parse_db`: fails (returning `EPKG_FATAL`, with `errno` preserved for
the caller) iff `fopen` fails; otherwise parses every line.  The argument
models the result of opening the file: `.error errno` when the file cannot
be opened, `.ok lines` with the `getline` lines (trailing newlines kept)
otherwise. -/
def parse_db (file : Except Nat (List Bytes)) : Except Nat (List audit_entry) :=
  match file with
  | .error e => .error e
  | .ok lines => .ok (parse_db_lines lines)

/-- `struct audit_entry_sorted`: an entry wrapped with its glob-free prefix
length and the index increment to the next distinct prefix. -/
structure audit_entry_sorted where
  e : audit_entry
  noglob_len : Nat
  next_pfx_incr : Nat
deriving DecidableEq, Repr, Inhabited

/-- `audit_entry_compare`: the qsort comparator — `strncmp` of the names over
the shorter glob-free prefix length, with the prefix length as tie-break so
a strict prefix goes first (sign-normalised). -/
def audit_entry_compare (a b : audit_entry_sorted) : Int :=
  let min_len := min a.noglob_len b.noglob_len
  let result := strncmp a.e.pkgname b.e.pkgname min_len
  if result = 0 then
    if a.noglob_len < b.noglob_len then -1
    else if b.noglob_len < a.noglob_len then 1
    else 0
  else result

/-- The non-strict order induced by `audit_entry_compare`, used to model
`qsort`. -/
def cmpRel (a b : audit_entry_sorted) : Prop := audit_entry_compare a b ≤ 0

instance : DecidableRel cmpRel := fun a b =>
  inferInstanceAs (Decidable (audit_entry_compare a b ≤ 0))

/-- Write `next_pfx_incr := v` at index `k` (no-op when out of range). -/
def set_incr : List audit_entry_sorted → Nat → Nat → List audit_entry_sorted
  | [], _, _ => []
  | x :: xs, 0, v => { x with next_pfx_incr := v } :: xs
  | x :: xs, k + 1, v => x :: set_incr xs k v

/-- The flush of `preprocess_db`:
`for (i = 0; tofill > 1; i++, tofill--) base[i].next_pfx_incr = tofill;`. -/
def flush_fill : List audit_entry_sorted → Nat → Nat → List audit_entry_sorted
  | ret, _, 0 => ret
  | ret, _, 1 => ret
  | ret, base, t + 2 => flush_fill (set_incr ret base (t + 2)) (base + 1) (t + 1)

/-- The jump-increment loop of `preprocess_db`
(`for (n = 1, tofill = 0; ret[n].e; n++)`), structurally recursive on fuel
(the loop runs at most `length - 1` iterations, so fuel `length` suffices). -/
def fill_loop : List audit_entry_sorted → Nat → Nat → Nat → List audit_entry_sorted
  | ret, 0, _, _ => ret
  | ret, fuel + 1, n, tofill =>
    if n < ret.length then
      let prev := ret.getD (n - 1) default
      let cur := ret.getD n default
      if prev.noglob_len ≠ cur.noglob_len then
        fill_loop (flush_fill ret (n - tofill) tofill) fuel (n + 1) 1
      else if strcmp prev.e.pkgname cur.e.pkgname = 0 then
        fill_loop ret fuel (n + 1) (tofill + 1)
      else
        fill_loop ret fuel (n + 1) 1
    else ret

/-- The jump-increment pass over the sorted array. -/
def fill_incr (ret : List audit_entry_sorted) : List audit_entry_sorted :=
  fill_loop ret ret.length 1 0

/-- The byte the table-building loop reads for an entry:
`(size_t)(ret[i].e->pkgname[0])` (0 for the empty name). -/
def fb_byte (e : audit_entry) : Nat := e.pkgname.headD 0

/-- The inner `while` advancing `i` past entries whose first byte is `< n`
(fuel `fbs.length` bounds the advance). -/
def fb_advance (fbs : List Nat) : Nat → Nat → Nat → Nat
  | 0, i, _ => i
  | fuel + 1, i, n =>
    if i < fbs.length ∧ fbs.getD i 0 < n then fb_advance fbs fuel (i + 1) n
    else i

/-- The `for (n = 1; n < 256; n++)` loop producing table entries
`n, n+1, ..., n+count-1` with the cumulative scan position `i`. -/
def fb_loop (fbs : List Nat) : Nat → Nat → Nat → List Nat
  | _, _, 0 => []
  | i, n, count + 1 =>
    let i2 := fb_advance fbs fbs.length i n
    i2 :: fb_loop fbs i2 (n + 1) count

/-- The 256-entry `audit_entry_first_byte_idx` table (entry 0 is left at 0
by the `bzero`). -/
def audit_entry_first_byte_idx (sorted : List audit_entry_sorted) : List Nat :=
  0 :: fb_loop (sorted.map fun a => fb_byte a.e) 0 1 255

/-- `preprocess_db`: wrap each list entry with its glob-free prefix length
and increment 1, sort with `audit_entry_compare` (modelling `qsort`, whose
tie order C leaves unspecified, by the stable insertion sort), fill the jump
increments, and build the first-byte table (a global in C, returned here). -/
def preprocess_db (h : List audit_entry) : List audit_entry_sorted × List Nat :=
  let ret := h.map fun e =>
    { e := e, noglob_len := str_noglob_len e.pkgname, next_pfx_incr := 1 }
  let sorted := List.insertionSort cmpRel ret
  let filled := fill_incr sorted
  (filled, audit_entry_first_byte_idx filled)

/-- `match_version(pkgversion, v)`, with the external `pkg_version_cmp`
passed as `cmp` (three-way verdicts -1, 0, 1). -/
def match_version (cmp : Bytes → Bytes → Int) (pkgversion : Bytes)
    (v : version_entry) : Bool :=
  match v.version with
  | none => true
  | some ver =>
    if cmp pkgversion ver = -1 then decide (v.type = LT ∨ v.type = LTE)
    else if cmp pkgversion ver = 0 then decide (v.type = EQ ∨ v.type = LTE ∨ v.type = GTE)
    else if cmp pkgversion ver = 1 then decide (v.type = GT ∨ v.type = GTE)
    else false

/-- Modelled from the spec: body of a glob `[...]` class (libc `fnmatch` is
external to the repository).  Given the pattern after the opening `[` (and
after any negation byte) and the name byte `c`, returns
`some (hit, rest)` with `rest` the pattern after the closing `]`, or `none`
if the class is unterminated.  The first position may hold a literal `]`;
`a-b` denotes a range unless `-` is the last byte before `]`. -/
def rangeloop (c : Nat) : Bytes → Bool → Bool → Option (Bool × Bytes)
  | [], _, _ => none
  | 93 :: rest, first, found =>
    if first then rangeloop c rest false (found || c == 93)
    else some (found, rest)
  | a :: 45 :: b :: rest, _, found =>
    if b = 93 then rangeloop c (45 :: b :: rest) false (found || c == a)
    else rangeloop c rest false (found || (a ≤ c && c ≤ b))
  | a :: rest, _, found => rangeloop c rest false (found || c == a)

/-- Modelled from the spec: a full `[...]` class match including the leading
`!` or `^` negation. -/
def rangematch (c : Nat) (p : Bytes) : Option (Bool × Bytes) :=
  match p with
  | 33 :: rest => (rangeloop c rest true false).map fun r => (!r.1, r.2)
  | 94 :: rest => (rangeloop c rest true false).map fun r => (!r.1, r.2)
  | _ => (rangeloop c p true false).map fun r => (r.1, r.2)

/-- Modelled from the spec: `fnmatch(pattern, name, 0)` — standard
shell-style wildcard matching, case-sensitive, with no path-separator
special-casing: `*` matches any run, `?` any single byte, `[...]` a class
(an unterminated `[` is literal), backslash escapes the next byte (a
trailing backslash is literal).  Returns true on match (C returns 0).
Structurally recursive on fuel; every step shortens pattern-plus-name, so
`fnmatch` below supplies enough fuel. -/
def fnmatch_go : Nat → Bytes → Bytes → Bool
  | 0, _, _ => false
  | _ + 1, [], n => n.isEmpty
  | fuel + 1, 42 :: p, n =>
    fnmatch_go fuel p n ||
      (match n with
       | [] => false
       | _ :: n2 => fnmatch_go fuel (42 :: p) n2)
  | fuel + 1, 63 :: p, n =>
    match n with
    | [] => false
    | _ :: n2 => fnmatch_go fuel p n2
  | fuel + 1, 91 :: p, n =>
    match n with
    | [] => false
    | c :: n2 =>
      match rangematch c p with
      | some (hit, rest) => hit && fnmatch_go fuel rest n2
      | none => (91 == c) && fnmatch_go fuel p n2
  | fuel + 1, 92 :: p, n =>
    match p, n with
    | [], d :: n2 => (92 == d) && fnmatch_go fuel [] n2
    | [], [] => false
    | c :: p2, d :: n2 => (c == d) && fnmatch_go fuel p2 n2
    | _ :: _, [] => false
  | fuel + 1, c :: p, n =>
    match n with
    | [] => false
    | d :: n2 => (c == d) && fnmatch_go fuel p n2

/-- Modelled from the spec: `fnmatch(pattern, name, 0) == 0`. -/
def fnmatch (p n : Bytes) : Bool := fnmatch_go (p.length + n.length + 1) p n

/-- Inner loop of `is_vulnerable`: examine entries `a[0..cnt)` of the
current prefix run, applying full `fnmatch` and both version bounds,
collecting the advisories reported vulnerable (the C code prints each and
ors it into `res`). -/
def iv_inner (cmp : Bytes → Bytes → Int) (arr : List audit_entry_sorted)
    (pkgname pkgversion : Bytes) : Nat → Nat → List audit_entry
  | _, 0 => []
  | pos, cnt + 1 =>
    let e := (arr.getD pos default).e
    let rest := iv_inner cmp arr pkgname pkgversion (pos + 1) cnt
    if fnmatch e.pkgname pkgname &&
        (match_version cmp pkgversion e.v1 && match_version cmp pkgversion e.v2) then
      e :: rest
    else rest

/-- Outer scan of `is_vulnerable`
(`for (; (e = a->e) != NULL; a += a->next_pfx_incr)`), structurally
recursive on fuel: every index built by `preprocess_db` has
`next_pfx_incr ≥ 1`, so the position strictly increases and
`arr.length + 1` units of fuel suffice. -/
def iv_outer (cmp : Bytes → Bytes → Int) (arr : List audit_entry_sorted)
    (pkgname pkgversion : Bytes) : Nat → Nat → List audit_entry
  | 0, _ => []
  | fuel + 1, pos =>
    if pos < arr.length then
      let a := arr.getD pos default
      let c := strncmp pkgname a.e.pkgname a.noglob_len
      if 0 < c then iv_outer cmp arr pkgname pkgversion fuel (pos + a.next_pfx_incr)
      else if c < 0 then []
      else
        iv_inner cmp arr pkgname pkgversion pos a.next_pfx_incr ++
          iv_outer cmp arr pkgname pkgversion fuel (pos + a.next_pfx_incr)
    else []

/-- `is_vulnerable(a, pkg)`: the list of advisories reported for package
`(pkgname, pkgversion)`, in scan order.  The C function prints each match
and returns whether this list is non-empty; the scan starts at
`audit_entry_first_byte_idx[pkgname[0]]`. -/
def is_vulnerable (cmp : Bytes → Bytes → Int)
    (arr : List audit_entry_sorted) (table : List Nat)
    (pkgname pkgversion : Bytes) : List audit_entry :=
  iv_outer cmp arr pkgname pkgversion (arr.length + 1)
    (table.getD (pkgname.headD 0) 0)

/-! ### Derived notions used to state the claims -/

/-- The literal (glob-free) prefix of an indexed entry, as the sort key of
the index is described: the first `noglob_len` bytes of the name pattern. -/
def pfx (a : audit_entry_sorted) : Bytes := a.e.pkgname.take a.noglob_len

/-- Three-way lexicographic comparison of byte lists, a strict prefix
ordering before its extensions.  This is the claimed sort key order:
prefix bytes first, prefix length as the tie-break. -/
def listCmp : Bytes → Bytes → Int
  | [], [] => 0
  | [], _ :: _ => -1
  | _ :: _, [] => 1
  | a :: as, b :: bs => if a < b then -1 else if b < a then 1 else listCmp as bs

/-- A concrete version comparator (plain lexicographic), used to witness
hypotheses about the opaque external comparator. -/
def lexCmp : Bytes → Bytes → Int
  | [], [] => 0
  | [], _ :: _ => -1
  | _ :: _, [] => 1
  | a :: as, b :: bs => if a < b then -1 else if b < a then 1 else lexCmp as bs

/-! ### Concrete advisory databases for the scenario claims -/

/-- The round-trip scenario advisory line (as written in the claim, with no
trailing newline: `getline` returns a last line without one unchanged). -/
def hbLine : Bytes := str "openssl>=1.0.0<1.0.2|http://example/adv|heartbleed"

/-- Index built from the single heartbleed advisory line. -/
def hbDB : List audit_entry_sorted × List Nat := preprocess_db (parse_db_lines [hbLine])

/-- The entry that parsing `hbLine` produces. -/
def hbE : audit_entry :=
  { pkgname := str "openssl",
    v1 := { version := some (str "1.0.0"), type := GTE },
    v2 := { version := some (str "1.0.2"), type := LT },
    url := some (str "http://example/adv"), desc := some (str "heartbleed") }

/-- Database with a single advisory whose name pattern starts with a glob
character, exhibiting the first-byte-table skip. -/
def globDB : List audit_entry_sorted × List Nat :=
  preprocess_db (parse_db_lines [str "*ssl|http://e/a|d"])

/-- Scanning the heartbleed index for package name `openssl` reduces, for
any comparator, to the two version-bound checks of its single entry. -/
lemma hb_scan (cmp : Bytes → Bytes → Int) (v : Bytes) :
    is_vulnerable cmp hbDB.1 hbDB.2 (str "openssl") v =
      (if match_version cmp v { version := some (str "1.0.0"), type := GTE } &&
          match_version cmp v { version := some (str "1.0.2"), type := LT }
       then [hbE] else []) := by
  have harr : hbDB.1 = [{ e := hbE, noglob_len := 7, next_pfx_incr := 1 }] := by decide
  have htab : hbDB.2.getD ((str "openssl").headD 0) 0 = 0 := by decide
  rw [is_vulnerable, harr, htab]
  show iv_outer cmp _ _ _ 2 0 = _
  rw [iv_outer]
  simp only [List.length_cons, List.length_nil, List.getD]
  norm_num
  have hsn : strncmp (str "openssl") hbE.pkgname 7 = 0 := by decide
  simp only [hsn]
  norm_num
  rw [iv_inner, iv_outer]
  have hget : (([{ e := hbE, noglob_len := 7, next_pfx_incr := 1 }] :
      List audit_entry_sorted).getD 0 default).e = hbE := by decide
  rw [hget]
  have hfn : fnmatch hbE.pkgname (str "openssl") = true := by decide
  rw [hfn]
  simp only [Bool.true_and, Bool.and_eq_true, iv_inner]
  split
  · rename_i h
    exact (if_pos h).symm
  · rename_i h
    exact (if_neg h).symm

/-! ### Claim theorems -/

/-- Claim C1 (code bug evidence): the advisory `*ssl|http://e/a|d` parses to
the pattern `*ssl` with both bounds absent; `*ssl` glob-matches the package
name `openssl` and an absent bound matches every version, so the claim says
the advisory must be collected for package `(openssl, 1.0.1)` — but the
query returns no match for any comparator, because the first-byte table
files the entry under its leading `*` byte (42) and the scan for `openssl`
starts past it. -/
theorem C1_first_byte_skips_matching_glob_advisory :
    (∀ cmp : Bytes → Bytes → Int,
      is_vulnerable cmp globDB.1 globDB.2 (str "openssl") (str "1.0.1") = []) ∧
    fnmatch (str "*ssl") (str "openssl") = true ∧
    (parse_db_lines [str "*ssl|http://e/a|d"]).map (fun e => e.pkgname) = [str "*ssl"] ∧
    (parse_db_lines [str "*ssl|http://e/a|d"]).map (fun e => (e.v1.version, e.v2.version))
      = [(none, none)] ∧
    (∀ (cmp : Bytes → Bytes → Int) (v : Bytes) (ty : Nat),
      match_version cmp v { version := none, type := ty } = true) :=
  ⟨fun _ => rfl, by decide, by decide, by decide, fun _ _ _ => rfl⟩

/-- Claim C2: round-trip scenario for the advisory line
`openssl>=1.0.0<1.0.2|http://example/adv|heartbleed`, for every external
comparator that orders 0.9.9 < 1.0.0 < 1.0.1 < 1.0.2 (hypotheses give the
comparator verdicts the queries consult): `(openssl, 1.0.1)` is reported
vulnerable exactly with description `heartbleed`; `(openssl, 1.0.2)` is not
(the LT upper bound fails on the Equal verdict); `(openssl, 0.9.9)` is not
(the GTE lower bound fails on the Less verdict). -/
theorem C2_heartbleed_round_trip (cmp : Bytes → Bytes → Int)
    (o1 : cmp (str "1.0.1") (str "1.0.0") = 1)
    (o2 : cmp (str "1.0.1") (str "1.0.2") = -1)
    (o3 : cmp (str "1.0.2") (str "1.0.0") = 1)
    (o4 : cmp (str "1.0.2") (str "1.0.2") = 0)
    (o5 : cmp (str "0.9.9") (str "1.0.0") = -1) :
    (is_vulnerable cmp hbDB.1 hbDB.2 (str "openssl") (str "1.0.1")).map (fun e => e.desc)
        = [some (str "heartbleed")] ∧
      is_vulnerable cmp hbDB.1 hbDB.2 (str "openssl") (str "1.0.2") = [] ∧
      is_vulnerable cmp hbDB.1 hbDB.2 (str "openssl") (str "0.9.9") = [] := by
  have m1 : match_version cmp (str "1.0.1") { version := some (str "1.0.0"), type := GTE } = true := by
    simp [match_version, o1, EQ, LT, LTE, GT, GTE]
  have m2 : match_version cmp (str "1.0.1") { version := some (str "1.0.2"), type := LT } = true := by
    simp [match_version, o2, EQ, LT, LTE, GT, GTE]
  have m3 : match_version cmp (str "1.0.2") { version := some (str "1.0.0"), type := GTE } = true := by
    simp [match_version, o3, EQ, LT, LTE, GT, GTE]
  have m4 : match_version cmp (str "1.0.2") { version := some (str "1.0.2"), type := LT } = false := by
    simp [match_version, o4, EQ, LT, LTE, GT, GTE]
  have m5 : match_version cmp (str "0.9.9") { version := some (str "1.0.0"), type := GTE } = false := by
    simp [match_version, o5, EQ, LT, LTE, GT, GTE]
  refine ⟨?_, ?_, ?_⟩
  · rw [hb_scan, m1, m2]; decide
  · rw [hb_scan, m3, m4]; decide
  · rw [hb_scan, m5]; simp

/-- Witness for C2 at the concrete lexicographic comparator, which orders
the four version strings as the claim assumes. -/
theorem C2_heartbleed_round_trip_witness :
    (is_vulnerable lexCmp hbDB.1 hbDB.2 (str "openssl") (str "1.0.1")).map (fun e => e.desc)
        = [some (str "heartbleed")] ∧
      is_vulnerable lexCmp hbDB.1 hbDB.2 (str "openssl") (str "1.0.2") = [] ∧
      is_vulnerable lexCmp hbDB.1 hbDB.2 (str "openssl") (str "0.9.9") = [] :=
  C2_heartbleed_round_trip lexCmp (by decide) (by decide) (by decide) (by decide) (by decide)

/-- Claim C3: `match_version` returns true for an absent bound whatever the
type code, and for a present bound returns true exactly on the claimed
comparator verdicts: Less for LT, Less-or-Equal for LTE, Equal for EQ,
Greater for GT, Greater-or-Equal for GTE. -/
theorem C3_match_version_verdicts :
    (∀ (cmp : Bytes → Bytes → Int) (v : Bytes) (ty : Nat),
      match_version cmp v { version := none, type := ty } = true) ∧
    (∀ (cmp : Bytes → Bytes → Int) (v s : Bytes),
      match_version cmp v { version := some s, type := LT } = decide (cmp v s = -1) ∧
      match_version cmp v { version := some s, type := LTE }
        = (decide (cmp v s = -1) || decide (cmp v s = 0)) ∧
      match_version cmp v { version := some s, type := EQ } = decide (cmp v s = 0) ∧
      match_version cmp v { version := some s, type := GT } = decide (cmp v s = 1) ∧
      match_version cmp v { version := some s, type := GTE }
        = (decide (cmp v s = 1) || decide (cmp v s = 0))) := by
  refine ⟨fun _ _ _ => rfl, fun cmp v s => ?_⟩
  by_cases h1 : cmp v s = -1 <;> by_cases h2 : cmp v s = 0 <;> by_cases h3 : cmp v s = 1 <;>
    refine ⟨?_, ?_, ?_, ?_, ?_⟩ <;>
    simp [match_version, h1, h2, h3, EQ, LT, LTE, GT, GTE]

/-- Claim C9: `parse_db` fails exactly when the file cannot be opened,
passing the I/O reason through unchanged; every readable input parses
successfully; comment lines starting with `#` contribute no entry wherever
they occur; and the malformed line `"\n"` (no separators, no name) still
produces an entry — with an empty name pattern, which glob-matches only the
empty package name and hence never matches a real one. -/
theorem C9_parse_errors_and_comments :
    (∀ err : Nat, parse_db (.error err) = .error err) ∧
    (∀ lines : List Bytes, parse_db (.ok lines) = .ok (parse_db_lines lines)) ∧
    (∀ (pre post : List Bytes) (rest : Bytes),
      parse_db_lines (pre ++ (35 :: rest) :: post) = parse_db_lines (pre ++ post)) ∧
    (parse_db_lines [str "\n"]).map (fun e => e.pkgname) = [[]] ∧
    (∀ name : Bytes, fnmatch [] name = name.isEmpty) := by
  refine ⟨fun _ => rfl, fun _ => rfl, fun pre post rest => ?_, by decide, fun name => ?_⟩
  · unfold parse_db_lines
    rw [List.foldl_append, List.foldl_append, List.foldl_cons]
    simp
  · cases name <;> rfl

/-! ### Counterexample material for the corrected claims -/

/-- The length of the maximal run of entries sharing the literal prefix of
entry `i`, starting at `i`. -/
def runLen (s : List audit_entry_sorted) (i : Nat) : Nat :=
  ((s.drop i).takeWhile (fun a => pfx a == pfx (s.getD i default))).length

/-- Claim C5 as stated: on every maximal run of consecutive entries sharing
one literal prefix, the first element's `next_pfx_incr` equals the run
length and the values decrease by one along the run. -/
def claimC5 (s : List audit_entry_sorted) : Prop :=
  ∀ i, i < s.length →
    (i = 0 ∨ pfx (s.getD (i - 1) default) ≠ pfx (s.getD i default)) →
    ∀ t, t < runLen s i →
      (s.getD (i + t) default).next_pfx_incr = runLen s i - t

instance (s : List audit_entry_sorted) : Decidable (claimC5 s) := by
  unfold claimC5; infer_instance

/-- Claim C6 as stated: for every byte `b`, the table holds the index of the
first sorted entry whose LITERAL PREFIX starts with a byte `≥ b` (an entry
with an empty literal prefix starts with no byte, so it qualifies for no
`b`), with the length as the "none" default. -/
def claimC6 (s : List audit_entry_sorted) (table : List Nat) : Prop :=
  ∀ b, b < 256 →
    table.getD b 0 = s.findIdx (fun a =>
      match pfx a with
      | [] => false
      | c :: _ => decide (b ≤ c))

instance (s : List audit_entry_sorted) (table : List Nat) :
    Decidable (claimC6 s table) := by
  unfold claimC6; infer_instance

/-- Index built from two equal-name advisories (a duplicate-name run that is
not followed by a prefix-length change). -/
def dupDB : List audit_entry_sorted × List Nat :=
  preprocess_db (parse_db_lines [str "b<1|u|d", str "b<2|u|d"])

/-- Counterexample to claim C5: in the index built from the two advisories
`b<1|u|d` and `b<2|u|d`, both entries share the literal prefix `b`, so the
run starting at index 0 has length 2 — but the first element's
`next_pfx_incr` is 1, not 2 (the fill loop flushes a run only when the
prefix length changes at its end, which never happens here). -/
theorem C5_counterexample :
    ¬ claimC5 dupDB.1 ∧
      dupDB.1.length = 2 ∧
      pfx (dupDB.1.getD 0 default) = pfx (dupDB.1.getD 1 default) ∧
      (dupDB.1.getD 0 default).next_pfx_incr = 1 := by decide

/-- Index built from a single advisory whose pattern starts with a glob
character, i.e. whose literal prefix is empty. -/
def starDB : List audit_entry_sorted × List Nat :=
  preprocess_db (parse_db_lines [str "*|u|d"])

/-- Counterexample to claim C6: in the index built from the advisory
`*|u|d`, the single entry has the empty literal prefix, which starts with
no byte at all, so for `b = 1` the claim requires the table entry to be 1
(the length, "past the end"); the code instead reads the full name's first
byte `* = 42` and stores 0. -/
theorem C6_counterexample :
    ¬ claimC6 starDB.1 starDB.2 ∧
      starDB.1.length = 1 ∧
      pfx (starDB.1.getD 0 default) = [] ∧
      (starDB.1.getD 0 default).e.pkgname = str "*" ∧
      starDB.2.getD 1 0 = 0 := by decide

/-- Counterexample to claim C7: in the line `a|u=1|d` the name_spec field is
`a`, which contains no comparator token — yet the parsed entry carries the
bound `=1|d` (type EQ), because `parse_pattern` is called with the whole
line's length and scans into the url field, where it finds the `=`. -/
theorem C7_counterexample :
    (strsep_fields (str "a|u=1|d\n")).headD [] = str "a" ∧
      (∀ c ∈ str "a", ¬(c = 60 ∨ c = 61 ∨ c = 62)) ∧
      (parse_line (str "a|u=1|d\n")).pkgname = str "a" ∧
      (parse_line (str "a|u=1|d\n")).v1
        = { version := some (str "1|d"), type := EQ } ∧
      (parse_line (str "a|u=1|d\n")).url = some (str "u=1") := by decide

/-- Index built from two advisories with identical sort keys, in this file
order. -/
def stabDB : List audit_entry_sorted × List Nat :=
  preprocess_db (parse_db_lines [str "a<1|u|d1", str "a<2|u|d2"])

/-- Counterexample to claim C8: the advisories `a<1|u|d1` (line 1) and
`a<2|u|d2` (line 2) have identical sort keys (the comparator returns 0),
but the built index lists the entry of line 2 first — `parse_db` prepends
each line to the head of its list, so the sort (stable in this model)
receives and keeps them in reverse file order. -/
theorem C8_counterexample :
    audit_entry_compare (stabDB.1.getD 0 default) (stabDB.1.getD 1 default) = 0 ∧
      stabDB.1.length = 2 ∧
      (stabDB.1.getD 0 default).e = parse_line (str "a<2|u|d2") ∧
      (stabDB.1.getD 1 default).e = parse_line (str "a<1|u|d1") ∧
      parse_line (str "a<1|u|d1") ≠ parse_line (str "a<2|u|d2") := by decide

/-! ### The first-byte table: characterisation (amended C6) -/

/-- The value the table should hold for byte `b`: the first index whose
recorded first byte is at least `b` (the length if there is none). -/
def fbTarget (fbs : List Nat) (b : Nat) : Nat :=
  fbs.findIdx (fun x => decide (b ≤ x))

lemma fbTarget_le_length (fbs : List Nat) (b : Nat) : fbTarget fbs b ≤ fbs.length :=
  List.findIdx_le_length _

lemma fbTarget_mono (fbs : List Nat) {b1 b2 : Nat} (h : b1 ≤ b2) :
    fbTarget fbs b1 ≤ fbTarget fbs b2 := by
  refine List.findIdx_le_findIdx fun x _ hx => ?_
  simp only [decide_eq_true_eq] at hx ⊢
  omega

lemma getD_eq_getElem {l : List Nat} {j : Nat} (hj : j < l.length) (d : Nat) :
    l.getD j d = l[j] := by
  rw [List.getD_eq_getElem?_getD, List.getElem?_eq_getElem hj, Option.getD_some]

lemma findIdx_getD_prop {p : Nat → Bool} {l : List Nat}
    (h : l.findIdx p < l.length) : p (l.getD (l.findIdx p) 0) = true := by
  rw [getD_eq_getElem h]
  exact List.findIdx_getElem (w := h)

lemma findIdx_getD_not {p : Nat → Bool} {l : List Nat} {i : Nat}
    (h : i < l.findIdx p) : p (l.getD i 0) = false := by
  have hlen : i < l.length := lt_of_lt_of_le h (List.findIdx_le_length p)
  rw [getD_eq_getElem hlen]
  exact List.not_of_lt_findIdx h

lemma fb_advance_spec (fbs : List Nat) :
    ∀ (fuel i b : Nat), (∀ j, j < i → j < fbs.length → fbs.getD j 0 < b) →
      i ≤ fbTarget fbs b → fbs.length - i ≤ fuel →
      fb_advance fbs fuel i b = fbTarget fbs b := by
  intro fuel
  induction fuel with
  | zero =>
    intro i b _ hle hfuel
    have := fbTarget_le_length fbs b
    have : i = fbTarget fbs b := by omega
    simpa [fb_advance] using this
  | succ fuel ih =>
    intro i b hlt hle hfuel
    rw [fb_advance]
    by_cases hc : i < fbs.length ∧ fbs.getD i 0 < b
    · rw [if_pos hc]
      have hip : i ≠ fbTarget fbs b := by
        intro hcontra
        have hfi : fbTarget fbs b < fbs.length := hcontra ▸ hc.1
        have hprop : b ≤ fbs.getD (fbTarget fbs b) 0 := by
          have := findIdx_getD_prop (p := fun x => decide (b ≤ x)) hfi
          simpa using this
        rw [← hcontra] at hprop
        omega
      refine ih (i + 1) b (fun j hj hjl => ?_) (by omega) (by omega)
      rcases Nat.lt_or_ge j i with hji | hji
      · exact hlt j hji hjl
      · have : j = i := by omega
        subst this; exact hc.2
    · rw [if_neg hc]
      push_neg at hc
      by_cases hil : i < fbs.length
      · have hbi : b ≤ fbs.getD i 0 := hc hil
        have : fbTarget fbs b ≤ i := by
          by_contra hcon
          push_neg at hcon
          have hnot : ¬ b ≤ fbs.getD i 0 := by
            have := findIdx_getD_not (p := fun x => decide (b ≤ x)) hcon
            simpa using this
          omega
        omega
      · have := fbTarget_le_length fbs b
        omega

lemma fb_loop_spec (fbs : List Nat) :
    ∀ (count b i : Nat), (∀ j, j < i → j < fbs.length → fbs.getD j 0 < b) →
      i ≤ fbTarget fbs b →
      fb_loop fbs i b count = (List.range count).map (fun k => fbTarget fbs (b + k)) := by
  intro count
  induction count with
  | zero => intro b i _ _; simp [fb_loop]
  | succ count ih =>
    intro b i hlt hle
    rw [fb_loop]
    have hadv : fb_advance fbs fbs.length i b = fbTarget fbs b :=
      fb_advance_spec fbs fbs.length i b hlt hle (by omega)
    rw [hadv]
    have hrec : fb_loop fbs (fbTarget fbs b) (b + 1) count
        = (List.range count).map (fun k => fbTarget fbs (b + 1 + k)) := by
      refine ih (b + 1) (fbTarget fbs b) (fun j hj hjl => ?_)
        (fbTarget_mono fbs (by omega))
      have hnot : ¬ b ≤ fbs.getD j 0 := by
        have := findIdx_getD_not (p := fun x => decide (b ≤ x)) hj
        simpa using this
      omega
    rw [hrec, List.range_succ_eq_map]
    simp only [List.map_cons, List.map_map, Nat.add_zero]
    congr 1
    refine List.map_congr_left fun k _ => ?_
    show fbTarget fbs (b + 1 + k) = fbTarget fbs (b + (k + 1))
    congr 1
    omega

lemma table_getD (s : List audit_entry_sorted) :
    ∀ b, b < 256 → (audit_entry_first_byte_idx s).getD b 0
      = fbTarget (s.map fun a => fb_byte a.e) b := by
  intro b hb
  set fbs := s.map fun a => fb_byte a.e with hfbs
  match b with
  | 0 =>
    show (0 : Nat) = fbTarget fbs 0
    cases fbs with
    | nil => rfl
    | cons x xs =>
      have : fbTarget (x :: xs) 0 = 0 := by
        unfold fbTarget
        rw [List.findIdx_cons]
        simp
      omega
  | b + 1 =>
    show (fb_loop fbs 0 1 255).getD b 0 = fbTarget fbs (b + 1)
    rw [fb_loop_spec fbs 255 1 0 (by omega) (by omega)]
    have hblt : b < 255 := by omega
    have hlen : b < ((List.range 255).map (fun k => fbTarget fbs (1 + k))).length := by
      simpa using hblt
    rw [List.getD_eq_getElem?_getD, List.getElem?_eq_getElem hlen, Option.getD_some]
    simp only [List.getElem_map, List.getElem_range]
    congr 1
    omega

/-- Amended claim C6: after the index is built, for every byte value
`b < 256` the table holds the index of the first sorted entry whose FULL
NAME PATTERN starts with a byte `≥ b` (an empty pattern counting as byte 0,
and the sequence length standing for "no such entry"), and the table is
monotonically non-decreasing over `b`.  This coincides with the claimed
literal-prefix reading exactly when no pattern begins with a glob
character. -/
theorem C6_amended_first_byte_table (h : List audit_entry) :
    ((preprocess_db h).2).length = 256 ∧
      (∀ b, b < 256 → ((preprocess_db h).2).getD b 0
        = ((preprocess_db h).1.map fun a => fb_byte a.e).findIdx (fun x => decide (b ≤ x))) ∧
      (∀ b1 b2, b1 ≤ b2 → b2 < 256 →
        ((preprocess_db h).2).getD b1 0 ≤ ((preprocess_db h).2).getD b2 0) := by
  refine ⟨?_, fun b hb => table_getD _ b hb, fun b1 b2 h12 hb2 => ?_⟩
  · show (audit_entry_first_byte_idx _).length = 256
    unfold audit_entry_first_byte_idx
    have : ∀ (fbs : List Nat) (count i n : Nat), (fb_loop fbs i n count).length = count := by
      intro fbs count
      induction count with
      | zero => intro i n; simp [fb_loop]
      | succ count ih => intro i n; rw [fb_loop]; simp [ih]
    simp [this]
  · show (audit_entry_first_byte_idx ((preprocess_db h).1)).getD b1 0
        ≤ (audit_entry_first_byte_idx ((preprocess_db h).1)).getD b2 0
    rw [table_getD _ b1 (by omega), table_getD _ b2 hb2]
    exact fbTarget_mono _ h12

/-- Witness for the amended C6 at the concrete one-entry `*|u|d` database:
the table files the entry under byte 42 and is monotone. -/
theorem C6_amended_first_byte_table_witness :
    starDB.2.getD 1 0
        = (starDB.1.map fun a => fb_byte a.e).findIdx (fun x => decide (1 ≤ x)) ∧
      starDB.2.getD 42 0 ≤ starDB.2.getD 100 0 :=
  ⟨(C6_amended_first_byte_table (parse_db_lines [str "*|u|d"])).2.1 1 (by omega),
   (C6_amended_first_byte_table (parse_db_lines [str "*|u|d"])).2.2 42 100 (by omega) (by omega)⟩

/-! ### The jump-increment fill loop: safety invariant (amended C5) -/

/-- Strings up to the first NUL, the equivalence `strcmp` decides. -/
def trunc (s : Bytes) : Bytes := s.takeWhile (fun c => c ≠ 0)

lemma strcmp_eq_zero_iff : ∀ a b : Bytes, strcmp a b = 0 ↔ trunc a = trunc b := by
  intro a
  induction a with
  | nil =>
    intro b
    cases b with
    | nil => simp [strcmp, trunc]
    | cons b0 bs =>
      by_cases hb : b0 = 0 <;> simp [strcmp, trunc, hb, List.takeWhile]
  | cons a0 as ih =>
    intro b
    cases b with
    | nil =>
      by_cases ha : a0 = 0 <;> simp [strcmp, trunc, ha, List.takeWhile]
    | cons b0 bs =>
      by_cases hab : a0 = b0
      · subst hab
        by_cases ha : a0 = 0
        · simp [strcmp, trunc, ha, List.takeWhile]
        · simp only [strcmp, ne_eq, not_true_eq_false, if_false, ha, if_neg, ite_false]
          rw [ih bs]
          simp [trunc, List.takeWhile, ha]
      · have h1 : trunc (a0 :: as) ≠ trunc (b0 :: bs) := by
          by_cases ha : a0 = 0 <;> by_cases hb : b0 = 0 <;>
            simp_all [trunc, List.takeWhile]
        by_cases hlt : a0 < b0 <;> simp [strcmp, hab, hlt, h1]

lemma strcmp_self (a : Bytes) : strcmp a a = 0 := by
  rw [strcmp_eq_zero_iff]

lemma strcmp_zero_symm {a b : Bytes} (h : strcmp a b = 0) : strcmp b a = 0 := by
  rw [strcmp_eq_zero_iff] at h ⊢
  exact h.symm

lemma strcmp_zero_trans {a b c : Bytes} (h1 : strcmp a b = 0)
    (h2 : strcmp b c = 0) : strcmp a c = 0 := by
  rw [strcmp_eq_zero_iff] at h1 h2 ⊢
  rw [h1, h2]

lemma set_incr_length : ∀ (l : List audit_entry_sorted) (k v : Nat),
    (set_incr l k v).length = l.length := by
  intro l
  induction l with
  | nil => intro k v; rfl
  | cons x xs ih =>
    intro k v
    cases k with
    | zero => rfl
    | succ k => simp [set_incr, ih]

lemma set_incr_getD : ∀ (l : List audit_entry_sorted) (k v j : Nat),
    (set_incr l k v).getD j default =
      if j = k ∧ k < l.length then
        { l.getD j default with next_pfx_incr := v }
      else l.getD j default := by
  intro l
  induction l with
  | nil =>
    intro k v j
    simp [set_incr]
  | cons x xs ih =>
    intro k v j
    cases k with
    | zero =>
      cases j with
      | zero => simp [set_incr]
      | succ j => simp [set_incr]
    | succ k =>
      cases j with
      | zero => simp [set_incr]
      | succ j =>
        simp only [set_incr, List.getD_cons_succ, List.length_cons]
        rw [ih]
        have hiff : (j = k ∧ k < xs.length) ↔ (j + 1 = k + 1 ∧ k + 1 < xs.length + 1) := by
          omega
        rw [if_congr hiff rfl rfl]

lemma set_incr_getD_e (l : List audit_entry_sorted) (k v j : Nat) :
    ((set_incr l k v).getD j default).e = (l.getD j default).e := by
  rw [set_incr_getD]
  split <;> rfl

lemma flush_fill_length : ∀ (t : Nat) (l : List audit_entry_sorted) (base : Nat),
    (flush_fill l base t).length = l.length := by
  intro t
  induction t using Nat.strong_induction_on with
  | _ t ih =>
    intro l base
    match t with
    | 0 => rfl
    | 1 => rfl
    | t + 2 =>
      show (flush_fill (set_incr l base (t + 2)) (base + 1) (t + 1)).length = _
      rw [ih (t + 1) (by omega), set_incr_length]

lemma flush_fill_getD_e : ∀ (t : Nat) (l : List audit_entry_sorted) (base j : Nat),
    ((flush_fill l base t).getD j default).e = (l.getD j default).e := by
  intro t
  induction t using Nat.strong_induction_on with
  | _ t ih =>
    intro l base j
    match t with
    | 0 => rfl
    | 1 => rfl
    | t + 2 =>
      show ((flush_fill (set_incr l base (t + 2)) (base + 1) (t + 1)).getD j default).e = _
      rw [ih (t + 1) (by omega), set_incr_getD_e]

lemma flush_fill_getD_out : ∀ (t : Nat) (l : List audit_entry_sorted) (base j : Nat),
    (j < base ∨ base + t ≤ j + 1) →
    (flush_fill l base t).getD j default = l.getD j default := by
  intro t
  induction t using Nat.strong_induction_on with
  | _ t ih =>
    intro l base j hj
    match t with
    | 0 => rfl
    | 1 => rfl
    | t + 2 =>
      show (flush_fill (set_incr l base (t + 2)) (base + 1) (t + 1)).getD j default = _
      rw [ih (t + 1) (by omega) _ _ _ (by omega), set_incr_getD]
      rw [if_neg]
      intro hcon
      omega

lemma flush_fill_getD_in : ∀ (t : Nat) (l : List audit_entry_sorted) (base j : Nat),
    base ≤ j → j + 1 < base + t → j < l.length →
    (flush_fill l base t).getD j default =
      { l.getD j default with next_pfx_incr := base + t - j } := by
  intro t
  induction t using Nat.strong_induction_on with
  | _ t ih =>
    intro l base j h1 h2 h3
    match t with
    | 0 => exact ((by omega : False)).elim
    | 1 => exact ((by omega : False)).elim
    | t + 2 =>
      show (flush_fill (set_incr l base (t + 2)) (base + 1) (t + 1)).getD j default = _
      rcases Nat.eq_or_lt_of_le h1 with hbj | hbj
      · rw [flush_fill_getD_out (t + 1) _ _ _ (Or.inl (by omega)), set_incr_getD,
          if_pos (show j = base ∧ base < l.length by omega)]
        have harith : t + 2 = base + (t + 2) - j := by omega
        rw [← harith]
      · rw [ih (t + 1) (by omega) _ _ _ (by omega) (by omega) (by rwa [set_incr_length]),
          set_incr_getD, if_neg (by omega)]
        have harith : base + 1 + (t + 1) - j = base + (t + 2) - j := by omega
        rw [harith]

/-- Safety property of the jump increments: every `next_pfx_incr` is at
least 1, stays within the array, and only jumps over entries whose full
name pattern is `strcmp`-equal to the current one. -/
def IncrSafe (s : List audit_entry_sorted) : Prop :=
  ∀ k, k < s.length →
    (s.getD k default).next_pfx_incr = 1 ∨
      (2 ≤ (s.getD k default).next_pfx_incr ∧
        k + (s.getD k default).next_pfx_incr ≤ s.length ∧
        ∀ j, k < j → j < k + (s.getD k default).next_pfx_incr →
          strcmp ((s.getD j default).e.pkgname) ((s.getD k default).e.pkgname) = 0)

/-- The loop-state invariant of the fill loop: entries `n-t .. n-1` all
carry `strcmp`-equal name patterns. -/
def RunBack (s : List audit_entry_sorted) (n t : Nat) : Prop :=
  ∀ j, n - t ≤ j → j < n →
    strcmp ((s.getD j default).e.pkgname) ((s.getD (n - 1) default).e.pkgname) = 0

lemma fill_loop_invariant : ∀ (fuel : Nat) (s : List audit_entry_sorted) (n t : Nat),
    1 ≤ n → t ≤ n → IncrSafe s → RunBack s n t →
    IncrSafe (fill_loop s fuel n t) := by
  intro fuel
  induction fuel with
  | zero => intro s n t _ _ hsafe _; exact hsafe
  | succ fuel ih =>
    intro s n t hn ht hsafe hrun
    rw [fill_loop]
    by_cases hlen : n < s.length
    · rw [if_pos hlen]
      by_cases hng : (s.getD (n - 1) default).noglob_len ≠ (s.getD n default).noglob_len
      · rw [if_pos hng]
        set s2 := flush_fill s (n - t) t with hs2
        have hlen2 : s2.length = s.length := flush_fill_length t s (n - t)
        have hname2 : ∀ j, ((s2.getD j default).e.pkgname) = ((s.getD j default).e.pkgname) :=
          fun j => congrArg audit_entry.pkgname (flush_fill_getD_e t s (n - t) j)
        refine ih s2 (n + 1) 1 (by omega) (by omega) ?_ ?_
        · intro k hk
          rw [hlen2] at hk
          by_cases hreg : k < n - t ∨ n ≤ k + 1
          · have heq : s2.getD k default = s.getD k default := by
              rw [hs2]
              exact flush_fill_getD_out t s (n - t) k (by omega)
            rcases hsafe k hk with h1 | ⟨h2a, h2b, h2c⟩
            · left; rw [heq]; exact h1
            · right
              rw [heq]
              refine ⟨h2a, by omega, fun j hj1 hj2 => ?_⟩
              rw [hname2 j]
              exact h2c j hj1 hj2
          · push_neg at hreg
            have hincr : (s2.getD k default).next_pfx_incr = n - k := by
              rw [hs2, flush_fill_getD_in t s (n - t) k (by omega) (by omega) hk]
              show n - t + t - k = n - k
              omega
            right
            rw [hincr]
            refine ⟨by omega, by omega, fun j hj1 hj2 => ?_⟩
            rw [hname2 j, hname2 k]
            have hj : strcmp ((s.getD j default).e.pkgname)
                ((s.getD (n - 1) default).e.pkgname) = 0 :=
              hrun j (by omega) (by omega)
            have hk0 : strcmp ((s.getD k default).e.pkgname)
                ((s.getD (n - 1) default).e.pkgname) = 0 :=
              hrun k (by omega) (by omega)
            exact strcmp_zero_trans hj (strcmp_zero_symm hk0)
        · intro j hj1 hj2
          have : j = n := by omega
          subst this
          simp only [Nat.add_sub_cancel]
          exact strcmp_self _
      · rw [if_neg hng]
        by_cases heqn : strcmp ((s.getD (n - 1) default).e.pkgname)
            ((s.getD n default).e.pkgname) = 0
        · rw [if_pos heqn]
          refine ih s (n + 1) (t + 1) (by omega) (by omega) hsafe ?_
          intro j hj1 hj2
          simp only [Nat.add_sub_cancel]
          by_cases hjn : j = n
          · subst hjn; exact strcmp_self _
          · exact strcmp_zero_trans (hrun j (by omega) (by omega)) heqn
        · rw [if_neg heqn]
          refine ih s (n + 1) 1 (by omega) (by omega) hsafe ?_
          intro j hj1 hj2
          have : j = n := by omega
          subst this
          simp only [Nat.add_sub_cancel]
          exact strcmp_self _
    · rw [if_neg hlen]
      exact hsafe

lemma fill_incr_safe (s : List audit_entry_sorted)
    (h1 : ∀ k, k < s.length → (s.getD k default).next_pfx_incr = 1) :
    IncrSafe (fill_incr s) :=
  fill_loop_invariant s.length s 1 0 (by omega) (by omega)
    (fun k hk => Or.inl (h1 k hk)) (fun j hj1 hj2 => by omega)

lemma getD_mem {s : List audit_entry_sorted} {k : Nat} (hk : k < s.length) :
    s.getD k default ∈ s := by
  rw [List.getD_eq_getElem?_getD, List.getElem?_eq_getElem hk, Option.getD_some]
  exact List.getElem_mem hk

lemma preprocess_incr_one (h : List audit_entry) :
    ∀ k, k < (List.insertionSort cmpRel (h.map fun e =>
        { e := e, noglob_len := str_noglob_len e.pkgname, next_pfx_incr := 1 })).length →
      ((List.insertionSort cmpRel (h.map fun e =>
        { e := e, noglob_len := str_noglob_len e.pkgname, next_pfx_incr := 1 })).getD k
          default).next_pfx_incr = 1 := by
  intro k hk
  have hmem := getD_mem hk
  rw [(List.perm_insertionSort cmpRel _).mem_iff, List.mem_map] at hmem
  obtain ⟨e, _, hmap⟩ := hmem
  rw [← hmap]

/-- Amended claim C5: after the index is built, every `group_skip`
(`next_pfx_incr`) is at least 1, never points past the end of the array,
and every entry it jumps over has the same full name pattern (`strcmp`
equal) as the entry carrying the skip — so a jump never bypasses an entry
with a different pattern.  (The claimed run-length/decreasing-by-one shape
fails in general, see the counterexample.) -/
theorem C5_amended_group_skip_safe (h : List audit_entry) (i : Nat)
    (hi : i < ((preprocess_db h).1).length) :
    1 ≤ ((preprocess_db h).1.getD i default).next_pfx_incr ∧
      i + ((preprocess_db h).1.getD i default).next_pfx_incr
        ≤ ((preprocess_db h).1).length ∧
      ∀ j, i < j → j < i + ((preprocess_db h).1.getD i default).next_pfx_incr →
        strcmp (((preprocess_db h).1.getD j default).e.pkgname)
          (((preprocess_db h).1.getD i default).e.pkgname) = 0 := by
  have hsafe : IncrSafe ((preprocess_db h).1) :=
    fill_incr_safe _ (preprocess_incr_one h)
  rcases hsafe i hi with h1 | ⟨h2a, h2b, h2c⟩
  · rw [h1]
    exact ⟨by omega, by omega, fun j hj1 hj2 => by omega⟩
  · exact ⟨by omega, h2b, h2c⟩

/-- Index with a three-entry duplicate-name run that the fill loop does
flush (it is followed by a longer prefix), used to witness the amended C5. -/
def runDB : List audit_entry_sorted × List Nat :=
  preprocess_db (parse_db_lines
    [str "a|u|x", str "b<1|u|x", str "b<2|u|x", str "b<3|u|x", str "cc|u|x"])

/-- Witness for the amended C5: in `runDB` the entry at index 1 carries a
skip of 3, and the entry it jumps over at index 2 has a `strcmp`-equal
name. -/
theorem C5_amended_group_skip_safe_witness :
    1 ≤ ((runDB.1).getD 1 default).next_pfx_incr ∧
      strcmp (((runDB.1).getD 2 default).e.pkgname)
        (((runDB.1).getD 1 default).e.pkgname) = 0 :=
  ⟨(C5_amended_group_skip_safe (parse_db_lines
      [str "a|u|x", str "b<1|u|x", str "b<2|u|x", str "b<3|u|x", str "cc|u|x"]) 1
      (by decide)).1,
   (C5_amended_group_skip_safe (parse_db_lines
      [str "a|u|x", str "b<1|u|x", str "b<2|u|x", str "b<3|u|x", str "cc|u|x"]) 1
      (by decide)).2.2 2 (by omega) (by decide)⟩

/-! ### The comparator as a lexicographic key order (claim C4) -/

lemma listCmp_cons (a0 b0 : Nat) (as bs : Bytes) :
    listCmp (a0 :: as) (b0 :: bs)
      = if a0 < b0 then -1 else if b0 < a0 then 1 else listCmp as bs := rfl

lemma listCmp_eq_zero_iff : ∀ a b : Bytes, listCmp a b = 0 ↔ a = b := by
  intro a
  induction a with
  | nil => intro b; cases b <;> simp [listCmp]
  | cons a0 as ih =>
    intro b
    cases b with
    | nil => simp [listCmp]
    | cons b0 bs =>
      rcases Nat.lt_trichotomy a0 b0 with h | h | h
      · simp [listCmp_cons, h]
        omega
      · subst h
        simp [listCmp_cons, ih]
      · simp [listCmp_cons, h, Nat.lt_asymm h]
        omega

lemma listCmp_self (a : Bytes) : listCmp a a = 0 := (listCmp_eq_zero_iff a a).mpr rfl

lemma listCmp_swap : ∀ a b : Bytes, listCmp b a = -listCmp a b := by
  intro a
  induction a with
  | nil => intro b; cases b <;> simp [listCmp]
  | cons a0 as ih =>
    intro b
    cases b with
    | nil => simp [listCmp]
    | cons b0 bs =>
      rcases Nat.lt_trichotomy a0 b0 with h | h | h
      · simp [listCmp_cons, h, Nat.lt_asymm h]
      · subst h
        simp [listCmp_cons, ih]
      · simp [listCmp_cons, h, Nat.lt_asymm h]

lemma listCmp_trans_le : ∀ a b c : Bytes,
    listCmp a b ≤ 0 → listCmp b c ≤ 0 → listCmp a c ≤ 0 := by
  intro a
  induction a with
  | nil =>
    intro b c _ _
    cases c <;> simp [listCmp]
  | cons a0 as ih =>
    intro b c h1 h2
    cases b with
    | nil => simp [listCmp] at h1
    | cons b0 bs =>
      cases c with
      | nil => simp [listCmp] at h2
      | cons c0 cs =>
        rcases Nat.lt_trichotomy a0 b0 with hab | hab | hab
        · have hbc : b0 ≤ c0 := by
            by_contra hcon
            push_neg at hcon
            rw [listCmp_cons, if_neg (by omega), if_pos (by omega)] at h2
            omega
          rw [listCmp_cons, if_pos (by omega)]
          omega
        · subst hab
          have h1r : listCmp as bs ≤ 0 := by
            simpa [listCmp_cons] using h1
          rcases Nat.lt_trichotomy a0 c0 with hac | hac | hac
          · rw [listCmp_cons, if_pos hac]; omega
          · subst hac
            have h2r : listCmp bs cs ≤ 0 := by
              simpa [listCmp_cons] using h2
            simpa [listCmp_cons] using ih bs cs h1r h2r
          · rw [listCmp_cons, if_neg (by omega), if_pos (by omega)] at h2
            omega
        · rw [listCmp_cons, if_neg (by omega), if_pos hab] at h1
          omega

/-- The effective sort key of a name prefix slot: the glob-free prefix
bytes, padded with NUL bytes to the recorded prefix length.  For the
entries `preprocess_db` builds this is exactly the literal prefix. -/
def padKey (n : Nat) (s : Bytes) : Bytes :=
  trunc (s.take n) ++ List.replicate (n - (trunc (s.take n)).length) 0

lemma trunc_length_le (l : Bytes) : (trunc l).length ≤ l.length :=
  List.Sublist.length_le (List.takeWhile_sublist _)

lemma padKey_length (n : Nat) (s : Bytes) : (padKey n s).length = n := by
  have h1 : (trunc (s.take n)).length ≤ n := by
    have := trunc_length_le (s.take n)
    have := List.length_take_le n s
    omega
  simp [padKey]
  omega

lemma padKey_nil (n : Nat) : padKey n [] = List.replicate n 0 := by
  simp [padKey, trunc]

lemma padKey_cons_zero (n : Nat) (s : Bytes) :
    padKey (n + 1) (0 :: s) = List.replicate (n + 1) 0 := by
  simp [padKey, trunc, List.takeWhile]

lemma padKey_cons (n : Nat) (a : Nat) (s : Bytes) (ha : a ≠ 0) :
    padKey (n + 1) (a :: s) = a :: padKey n s := by
  have htw : trunc ((a :: s).take (n + 1)) = a :: trunc (s.take n) := by
    simp [trunc, List.takeWhile, ha]
  simp only [padKey, htw, List.length_cons]
  have harith : n + 1 - ((trunc (s.take n)).length + 1) = n - (trunc (s.take n)).length := by
    omega
  simp [harith]

lemma listCmp_replicate_zero (n : Nat) :
    listCmp (List.replicate n 0) (List.replicate n 0) = 0 := listCmp_self _

lemma strncmp_eq_listCmp : ∀ (n : Nat) (s t : Bytes),
    strncmp s t n = listCmp (padKey n s) (padKey n t) := by
  intro n
  induction n with
  | zero =>
    intro s t
    simp [strncmp, padKey, trunc, listCmp]
  | succ n ih =>
    intro s t
    cases s with
    | nil =>
      cases t with
      | nil => simp [strncmp, padKey_nil, listCmp_self]
      | cons b bs =>
        by_cases hb : b = 0
        · subst hb
          simp [strncmp, padKey_nil, padKey_cons_zero, listCmp_self]
        · rw [padKey_nil, padKey_cons n b bs hb]
          show strncmp [] (b :: bs) (n + 1) = listCmp (0 :: List.replicate n 0) (b :: padKey n bs)
          rw [listCmp_cons, if_pos (by omega)]
          simp [strncmp, hb]
    | cons a as =>
      cases t with
      | nil =>
        by_cases ha : a = 0
        · subst ha
          simp [strncmp, padKey_nil, padKey_cons_zero, listCmp_self]
        · rw [padKey_nil, padKey_cons n a as ha]
          show strncmp (a :: as) [] (n + 1) = listCmp (a :: padKey n as) (0 :: List.replicate n 0)
          rw [listCmp_cons, if_neg (by omega), if_pos (by omega)]
          simp [strncmp, ha]
      | cons b bs =>
        by_cases hab : a = b
        · subst hab
          by_cases ha : a = 0
          · subst ha
            simp [strncmp, padKey_cons_zero, listCmp_self]
          · rw [padKey_cons n a as ha, padKey_cons n a bs ha, listCmp_cons,
              if_neg (by omega), if_neg (by omega)]
            have hs : strncmp (a :: as) (a :: bs) (n + 1) = strncmp as bs n := by
              simp [strncmp, ha]
            rw [hs, ih]
        · have hs : strncmp (a :: as) (b :: bs) (n + 1)
              = if a < b then -1 else 1 := by
            simp [strncmp, hab]
          by_cases ha : a = 0
          · subst ha
            rw [padKey_cons_zero, padKey_cons n b bs (by omega)]
            show _ = listCmp (0 :: List.replicate n 0) (b :: padKey n bs)
            rw [listCmp_cons, if_pos (by omega), hs, if_pos (by omega)]
          · by_cases hb : b = 0
            · subst hb
              rw [padKey_cons n a as ha, padKey_cons_zero]
              show _ = listCmp (a :: padKey n as) (0 :: List.replicate n 0)
              rw [listCmp_cons, if_neg (by omega), if_pos (by omega), hs,
                if_neg (by omega)]
            · rw [padKey_cons n a as ha, padKey_cons n b bs hb, listCmp_cons, hs]
              rcases Nat.lt_trichotomy a b with h | h | h
              · rw [if_pos h, if_pos h]
              · exact absurd h hab
              · rw [if_neg (by omega), if_neg (by omega), if_pos h]

lemma take_padKey (m n : Nat) (s : Bytes) (hmn : m ≤ n) :
    (padKey n s).take m = padKey m s := by
  have htr : trunc (s.take m) = (trunc (s.take n)).take m := by
    have h1 : s.take m = (s.take n).take m := by
      rw [List.take_take, Nat.min_eq_left hmn]
    rw [h1]
    exact (List.take_takeWhile _ m).symm
  set T := trunc (s.take n) with hT
  rw [padKey, List.take_append_eq_append_take, ← hT, ← htr, List.take_replicate]
  rw [padKey, htr]
  by_cases hm : m ≤ T.length
  · have h2 : ((T.take m).length) = m := by
      have := trunc_length_le (s.take n)
      simp [List.length_take]
      omega
    rw [h2]
    simp [Nat.sub_eq_zero_of_le hm]
  · push_neg at hm
    have h2 : T.take m = T := List.take_of_length_le (by omega)
    rw [h2]
    congr 2
    omega

lemma listCmp_take_min : ∀ (X Y : Bytes),
    listCmp X Y =
      if listCmp (X.take (min X.length Y.length)) (Y.take (min X.length Y.length)) = 0
      then (if X.length < Y.length then -1
            else if Y.length < X.length then 1 else 0)
      else listCmp (X.take (min X.length Y.length)) (Y.take (min X.length Y.length)) := by
  intro X
  induction X with
  | nil =>
    intro Y
    cases Y <;> simp [listCmp]
  | cons x xs ih =>
    intro Y
    cases Y with
    | nil => simp [listCmp]
    | cons y ys =>
      have hmin : min (x :: xs).length (y :: ys).length = min xs.length ys.length + 1 := by
        simp only [List.length_cons]
        omega
      rw [hmin]
      simp only [List.take_succ_cons, listCmp_cons, List.length_cons]
      rcases Nat.lt_trichotomy x y with h | h | h
      · have h2 : ¬ y < x := by omega
        simp [h, h2]
      · subst h
        have h2 : ¬ x < x := by omega
        simp only [h2, if_false]
        rw [ih ys]
        by_cases hz : listCmp (xs.take (min xs.length ys.length))
            (ys.take (min xs.length ys.length)) = 0
        · rw [if_pos hz, if_pos hz]
          split_ifs <;> omega
        · rw [if_neg hz, if_neg hz]
      · have h2 : ¬ x < y := by omega
        simp [h, h2]

/-- `audit_entry_compare` is exactly the three-way lexicographic comparison
of the padded prefix keys. -/
lemma audit_entry_compare_eq_listCmp (a b : audit_entry_sorted) :
    audit_entry_compare a b
      = listCmp (padKey a.noglob_len a.e.pkgname) (padKey b.noglob_len b.e.pkgname) := by
  have hX := padKey_length a.noglob_len a.e.pkgname
  have hY := padKey_length b.noglob_len b.e.pkgname
  rw [listCmp_take_min (padKey a.noglob_len a.e.pkgname)
    (padKey b.noglob_len b.e.pkgname), hX, hY,
    take_padKey _ _ _ (Nat.min_le_left _ _),
    take_padKey _ _ _ (Nat.min_le_right _ _)]
  show (if strncmp a.e.pkgname b.e.pkgname (min a.noglob_len b.noglob_len) = 0
    then _ else strncmp a.e.pkgname b.e.pkgname (min a.noglob_len b.noglob_len)) = _
  rw [strncmp_eq_listCmp]

lemma audit_entry_compare_swap (a b : audit_entry_sorted) :
    audit_entry_compare b a = -audit_entry_compare a b := by
  rw [audit_entry_compare_eq_listCmp, audit_entry_compare_eq_listCmp, listCmp_swap]

instance : IsTotal audit_entry_sorted cmpRel :=
  ⟨fun a b => by
    unfold cmpRel
    rcases le_or_lt (audit_entry_compare a b) 0 with h | h
    · exact Or.inl h
    · right
      rw [audit_entry_compare_swap]
      omega⟩

instance : IsTrans audit_entry_sorted cmpRel :=
  ⟨fun a b c h1 h2 => by
    unfold cmpRel at h1 h2 ⊢
    rw [audit_entry_compare_eq_listCmp] at h1 h2 ⊢
    exact listCmp_trans_le _ _ _ h1 h2⟩

lemma take_length_takeWhile (p : Nat → Bool) :
    ∀ l : Bytes, l.take (l.takeWhile p).length = l.takeWhile p := by
  intro l
  induction l with
  | nil => rfl
  | cons x xs ih =>
    by_cases h : p x
    · simp [List.takeWhile_cons, h, ih]
    · simp [List.takeWhile_cons, h]

lemma takeWhile_eq_self_of_forall {p : Nat → Bool} :
    ∀ l : Bytes, (∀ c ∈ l, p c = true) → l.takeWhile p = l := by
  intro l
  induction l with
  | nil => intro _; rfl
  | cons x xs ih =>
    intro h
    rw [List.takeWhile_cons, if_pos (h x (by simp)), ih fun c hc => h c (by simp [hc])]

lemma noglob_ne_zero {c : Nat} (h : noglob c = true) : c ≠ 0 := by
  simp [noglob] at h
  exact h.1.1.1.1.1

/-- For the recorded prefix length `preprocess_db` computes, the padded key
is the literal glob-free prefix itself. -/
lemma padKey_noglob (s : Bytes) :
    padKey (str_noglob_len s) s = s.take (str_noglob_len s) := by
  have h1 : s.take (str_noglob_len s) = s.takeWhile noglob :=
    take_length_takeWhile noglob s
  have h2 : trunc (s.takeWhile noglob) = s.takeWhile noglob :=
    takeWhile_eq_self_of_forall _ fun c hc => by
      have := List.mem_takeWhile_imp hc
      simp [noglob_ne_zero this]
  rw [padKey, h1, h2, str_noglob_len]
  simp

/-- Projection to the fields the sort key and the scan read; the fill pass
changes only `next_pfx_incr`, so this projection is preserved. -/
def projKey (a : audit_entry_sorted) : audit_entry × Nat := (a.e, a.noglob_len)

lemma getD_eq_getElem_gen {α : Type} {l : List α} {j : Nat} (hj : j < l.length) (d : α) :
    l.getD j d = l[j] := by
  rw [List.getD_eq_getElem?_getD, List.getElem?_eq_getElem hj, Option.getD_some]

lemma set_incr_getD_key (l : List audit_entry_sorted) (k v j : Nat) :
    projKey ((set_incr l k v).getD j default) = projKey (l.getD j default) := by
  rw [set_incr_getD]
  split <;> rfl

lemma flush_fill_getD_key : ∀ (t : Nat) (l : List audit_entry_sorted) (base j : Nat),
    projKey ((flush_fill l base t).getD j default) = projKey (l.getD j default) := by
  intro t
  induction t using Nat.strong_induction_on with
  | _ t ih =>
    intro l base j
    match t with
    | 0 => rfl
    | 1 => rfl
    | t + 2 =>
      show projKey ((flush_fill (set_incr l base (t + 2)) (base + 1) (t + 1)).getD j default) = _
      rw [ih (t + 1) (by omega), set_incr_getD_key]

lemma fill_loop_length : ∀ (fuel : Nat) (l : List audit_entry_sorted) (n t : Nat),
    (fill_loop l fuel n t).length = l.length := by
  intro fuel
  induction fuel with
  | zero => intro l n t; rfl
  | succ fuel ih =>
    intro l n t
    rw [fill_loop]
    by_cases h1 : n < l.length
    · rw [if_pos h1]
      by_cases h2 : (l.getD (n - 1) default).noglob_len ≠ (l.getD n default).noglob_len
      · rw [if_pos h2, ih, flush_fill_length]
      · rw [if_neg h2]
        by_cases h3 : strcmp (l.getD (n - 1) default).e.pkgname (l.getD n default).e.pkgname = 0
        · rw [if_pos h3, ih]
        · rw [if_neg h3, ih]
    · rw [if_neg h1]

lemma fill_loop_getD_key : ∀ (fuel : Nat) (l : List audit_entry_sorted) (n t j : Nat),
    projKey ((fill_loop l fuel n t).getD j default) = projKey (l.getD j default) := by
  intro fuel
  induction fuel with
  | zero => intro l n t j; rfl
  | succ fuel ih =>
    intro l n t j
    rw [fill_loop]
    by_cases h1 : n < l.length
    · rw [if_pos h1]
      by_cases h2 : (l.getD (n - 1) default).noglob_len ≠ (l.getD n default).noglob_len
      · rw [if_pos h2, ih, flush_fill_getD_key]
      · rw [if_neg h2]
        by_cases h3 : strcmp (l.getD (n - 1) default).e.pkgname (l.getD n default).e.pkgname = 0
        · rw [if_pos h3, ih]
        · rw [if_neg h3, ih]
    · rw [if_neg h1]

lemma fill_incr_map_key (l : List audit_entry_sorted) :
    (fill_incr l).map projKey = l.map projKey := by
  have hlen : (fill_incr l).length = l.length := fill_loop_length l.length l 1 0
  apply List.ext_getElem
  · simp [hlen]
  · intro i h1 h2
    simp only [List.getElem_map]
    rw [← getD_eq_getElem_gen (l := fill_incr l) (by simpa using h1) default,
      ← getD_eq_getElem_gen (l := l) (by simpa using h2) default]
    exact fill_loop_getD_key l.length l 1 0 i

lemma mem_insertionSort_wrap {h : List audit_entry} {x : audit_entry_sorted}
    (hx : x ∈ List.insertionSort cmpRel (h.map fun e =>
      { e := e, noglob_len := str_noglob_len e.pkgname, next_pfx_incr := 1 })) :
    x.noglob_len = str_noglob_len x.e.pkgname := by
  rw [(List.perm_insertionSort cmpRel _).mem_iff, List.mem_map] at hx
  obtain ⟨e, _, hmap⟩ := hx
  rw [← hmap]

/-- Claim C4: after the index is built the entry sequence is sorted
ascending by the literal glob-free prefix under the lexicographic order in
which a strict prefix comes before its extensions (`listCmp ≤ 0` — bytes
first, prefix length as the tie-break), and entries sharing one literal
prefix occupy a contiguous run: any entry between two entries of equal
prefix carries that same prefix. -/
theorem C4_sorted_and_contiguous (h : List audit_entry) :
    List.Pairwise (fun a b => listCmp (pfx a) (pfx b) ≤ 0) ((preprocess_db h).1) ∧
      (∀ i j k, i ≤ j → j ≤ k → k < ((preprocess_db h).1).length →
        pfx (((preprocess_db h).1).getD i default)
          = pfx (((preprocess_db h).1).getD k default) →
        pfx (((preprocess_db h).1).getD j default)
          = pfx (((preprocess_db h).1).getD i default)) := by
  have hsorted : List.Pairwise cmpRel (List.insertionSort cmpRel (h.map fun e =>
      { e := e, noglob_len := str_noglob_len e.pkgname, next_pfx_incr := 1 })) :=
    List.sorted_insertionSort cmpRel _
  have hp2 : List.Pairwise (fun a b => listCmp (pfx a) (pfx b) ≤ 0)
      (List.insertionSort cmpRel (h.map fun e =>
        { e := e, noglob_len := str_noglob_len e.pkgname, next_pfx_incr := 1 })) := by
    refine hsorted.imp_of_mem fun {a b} ha hb hr => ?_
    have hwa := mem_insertionSort_wrap ha
    have hwb := mem_insertionSort_wrap hb
    unfold cmpRel at hr
    rw [audit_entry_compare_eq_listCmp, hwa, hwb, padKey_noglob, padKey_noglob] at hr
    unfold pfx
    rw [hwa, hwb]
    exact hr
  have hmain : List.Pairwise (fun a b => listCmp (pfx a) (pfx b) ≤ 0)
      ((preprocess_db h).1) := by
    have hmap := fill_incr_map_key (List.insertionSort cmpRel (h.map fun e =>
      { e := e, noglob_len := str_noglob_len e.pkgname, next_pfx_incr := 1 }))
    have hiff := List.pairwise_map
      (l := fill_incr (List.insertionSort cmpRel (h.map fun e =>
        { e := e, noglob_len := str_noglob_len e.pkgname, next_pfx_incr := 1 })))
      (f := projKey)
      (R := fun p q => listCmp (p.1.pkgname.take p.2) (q.1.pkgname.take q.2) ≤ 0)
    have hiff2 := List.pairwise_map
      (l := List.insertionSort cmpRel (h.map fun e =>
        { e := e, noglob_len := str_noglob_len e.pkgname, next_pfx_incr := 1 }))
      (f := projKey)
      (R := fun p q => listCmp (p.1.pkgname.take p.2) (q.1.pkgname.take q.2) ≤ 0)
    exact hiff.mp (hmap ▸ hiff2.mpr hp2)
  refine ⟨hmain, fun i j k hij hjk hk hik => ?_⟩
  set s := (preprocess_db h).1 with hs
  have hgetR : ∀ {i1 j1 : Nat}, i1 ≤ j1 → j1 < s.length →
      listCmp (pfx (s.getD i1 default)) (pfx (s.getD j1 default)) ≤ 0 := by
    intro i1 j1 h1 h2
    rcases Nat.eq_or_lt_of_le h1 with he | hlt
    · subst he
      rw [listCmp_self]
    · rw [getD_eq_getElem_gen (by omega) default, getD_eq_getElem_gen h2 default]
      exact List.pairwise_iff_getElem.mp hmain i1 j1 (by omega) h2 hlt
  have h1 : listCmp (pfx (s.getD i default)) (pfx (s.getD j default)) ≤ 0 :=
    hgetR hij (by omega)
  have h2 : listCmp (pfx (s.getD j default)) (pfx (s.getD k default)) ≤ 0 :=
    hgetR hjk hk
  rw [← hik] at h2
  have hswap := listCmp_swap (pfx (s.getD i default)) (pfx (s.getD j default))
  have hz : listCmp (pfx (s.getD i default)) (pfx (s.getD j default)) = 0 := by omega
  exact ((listCmp_eq_zero_iff _ _).mp hz).symm

/-- Witness for C4 at the two-entry duplicate-prefix database: the built
sequence is pairwise sorted and the entry between two equal prefixes (here
the degenerate middle) carries the same prefix. -/
theorem C4_sorted_and_contiguous_witness :
    List.Pairwise (fun a b => listCmp (pfx a) (pfx b) ≤ 0) dupDB.1 ∧
      pfx (dupDB.1.getD 1 default) = pfx (dupDB.1.getD 0 default) :=
  ⟨(C4_sorted_and_contiguous (parse_db_lines [str "b<1|u|d", str "b<2|u|d"])).1,
   (C4_sorted_and_contiguous (parse_db_lines [str "b<1|u|d", str "b<2|u|d"])).2
     0 1 1 (by omega) (by omega) (by decide) (by decide)⟩

/-! ### Stability of the modelled sort (amended C8) -/

lemma parse_db_lines_foldl : ∀ (lines : List Bytes) (acc : List audit_entry),
    lines.foldl (fun h line => if line.headD 0 = 35 then h else parse_line line :: h) acc
      = ((lines.filter (fun l => !(l.headD 0 == 35))).map parse_line).reverse ++ acc := by
  intro lines
  induction lines with
  | nil => intro acc; rfl
  | cons l ls ih =>
    intro acc
    rw [List.foldl_cons]
    by_cases hc : l.headD 0 = 35
    · rw [if_pos hc, ih, List.filter_cons_of_neg (by simpa using hc)]
    · rw [if_neg hc, ih, List.filter_cons_of_pos (by simpa using hc), List.map_cons,
        List.reverse_cons, List.append_assoc]
      rfl

lemma parse_db_lines_eq (lines : List Bytes) :
    parse_db_lines lines
      = ((lines.filter (fun l => !(l.headD 0 == 35))).map parse_line).reverse := by
  rw [parse_db_lines, parse_db_lines_foldl, List.append_nil]

/-- The modelled sort is stable in the following form: filtering by any
predicate that selects only elements of one comparator-tie class commutes
with sorting, i.e. tied elements keep their input order. -/
lemma insertionSort_filter_stable (p : audit_entry_sorted → Bool) :
    ∀ l : List audit_entry_sorted,
      (∀ x ∈ l, ∀ y ∈ l, p x = true → p y = true → cmpRel x y) →
      (List.insertionSort cmpRel l).filter p = l.filter p := by
  intro l
  induction l with
  | nil => intro _; rfl
  | cons a l ih =>
    intro hp
    have hpl : ∀ x ∈ l, ∀ y ∈ l, p x = true → p y = true → cmpRel x y :=
      fun x hx y hy => hp x (by simp [hx]) y (by simp [hy])
    have hmemS : ∀ b, b ∈ List.insertionSort cmpRel l → b ∈ l :=
      fun b hb => (List.perm_insertionSort cmpRel l).subset hb
    show (List.orderedInsert cmpRel a (List.insertionSort cmpRel l)).filter p
        = (a :: l).filter p
    rw [List.orderedInsert_eq_take_drop, List.filter_append]
    by_cases hpa : p a = true
    · have htW : ((List.insertionSort cmpRel l).takeWhile
          (fun b => decide ¬ cmpRel a b)).filter p = [] := by
        rw [List.filter_eq_nil_iff]
        intro b hb
        have hmem : b ∈ List.insertionSort cmpRel l :=
          (List.takeWhile_sublist _).subset hb
        have hnab := List.mem_takeWhile_imp hb
        simp only [decide_eq_true_eq] at hnab
        intro hpb
        exact hnab (hp a (by simp) b (by simp [hmemS b hmem]) hpa hpb)
      have hdW : ((List.insertionSort cmpRel l).dropWhile
          (fun b => decide ¬ cmpRel a b)).filter p
          = (List.insertionSort cmpRel l).filter p := by
        conv_rhs => rw [← List.takeWhile_append_dropWhile
          (p := fun b => decide ¬ cmpRel a b) (l := List.insertionSort cmpRel l)]
        rw [List.filter_append, htW, List.nil_append]
      rw [htW, List.filter_cons_of_pos hpa, hdW, ih hpl, List.nil_append,
        List.filter_cons_of_pos hpa]
    · rw [List.filter_cons_of_neg hpa, ← List.filter_append,
        List.takeWhile_append_dropWhile, ih hpl, List.filter_cons_of_neg hpa]

lemma filter_map_e_of_map_key_eq (key : Bytes) {l1 l2 : List audit_entry_sorted}
    (hmap : l1.map projKey = l2.map projKey) :
    (l1.filter (fun a => pfx a == key)).map (fun a => a.e)
      = (l2.filter (fun a => pfx a == key)).map (fun a => a.e) := by
  have h1 : ∀ l : List audit_entry_sorted,
      (l.filter (fun a => pfx a == key)).map (fun a => a.e)
        = ((l.map projKey).filter
            (fun q => q.1.pkgname.take q.2 == key)).map (fun q => q.1) := by
    intro l
    rw [List.filter_map, List.map_map]
    rfl
  rw [h1 l1, h1 l2, hmap]

/-- Amended claim C8: entries with identical sort keys appear in the built
index in REVERSE source-file order.  `parse_db` prepends each parsed line
to the head of its list, and the sort — modelled as stable, a property C's
`qsort` does not even guarantee — keeps equal keys in that reversed order.
Stated per key: the key-`key` entries of the built index are exactly the
key-`key` advisories of the file in reverse file order. -/
theorem C8_amended_reverse_stability (lines : List Bytes) (key : Bytes) :
    (((preprocess_db (parse_db_lines lines)).1.filter
        (fun a => pfx a == key)).map (fun a => a.e))
      = (((lines.filter (fun l => !(l.headD 0 == 35))).map parse_line).filter
          (fun e => e.pkgname.take (str_noglob_len e.pkgname) == key)).reverse := by
  have hstab : (List.insertionSort cmpRel ((parse_db_lines lines).map fun e =>
        { e := e, noglob_len := str_noglob_len e.pkgname, next_pfx_incr := 1 })).filter
          (fun a => pfx a == key)
      = ((parse_db_lines lines).map fun e =>
        { e := e, noglob_len := str_noglob_len e.pkgname, next_pfx_incr := 1 }).filter
          (fun a => pfx a == key) := by
    refine insertionSort_filter_stable _ _ fun x hx y hy hpx hpy => ?_
    rw [List.mem_map] at hx hy
    obtain ⟨ex, _, hex⟩ := hx
    obtain ⟨ey, _, hey⟩ := hy
    simp only [beq_iff_eq] at hpx hpy
    unfold cmpRel
    rw [audit_entry_compare_eq_listCmp, ← hex, ← hey]
    show listCmp (padKey (str_noglob_len ex.pkgname) ex.pkgname)
        (padKey (str_noglob_len ey.pkgname) ey.pkgname) ≤ 0
    rw [padKey_noglob, padKey_noglob]
    have hfx : pfx x = ex.pkgname.take (str_noglob_len ex.pkgname) := by
      rw [← hex]; rfl
    have hfy : pfx y = ey.pkgname.take (str_noglob_len ey.pkgname) := by
      rw [← hey]; rfl
    rw [← hfx, ← hfy, hpx, hpy, listCmp_self]
  have hfill := filter_map_e_of_map_key_eq key
    (fill_incr_map_key (List.insertionSort cmpRel ((parse_db_lines lines).map fun e =>
      { e := e, noglob_len := str_noglob_len e.pkgname, next_pfx_incr := 1 })))
  show ((fill_incr (List.insertionSort cmpRel ((parse_db_lines lines).map fun e =>
      { e := e, noglob_len := str_noglob_len e.pkgname, next_pfx_incr := 1 }))).filter
        (fun a => pfx a == key)).map (fun a => a.e) = _
  rw [hfill, hstab, parse_db_lines_eq]
  rw [List.filter_map, List.map_map, List.filter_reverse, List.map_reverse]
  congr 1
  have hcomp : ((fun (a : audit_entry_sorted) => a.e) ∘ fun e =>
      { e := e, noglob_len := str_noglob_len e.pkgname, next_pfx_incr := 1 })
      = fun e : audit_entry => e := rfl
  rw [hcomp, List.map_id']
  rfl

/-! ### The comparator-free scan (amended C7) -/

lemma parse_pattern_go_at_end (buf : Bytes) (len fuel : Nat) (st : PPState) :
    parse_pattern_go buf len fuel len st = st := by
  cases fuel with
  | zero => rfl
  | succ fuel =>
    rw [parse_pattern_go, if_neg (by omega)]

lemma parse_pattern_go_step_nocomp (buf : Bytes) (len fuel i : Nat) (st : PPState)
    (hi : i < len)
    (hc : getb buf i ≠ 60 ∧ getb buf i ≠ 61 ∧ getb buf i ≠ 62) :
    parse_pattern_go buf len (fuel + 1) i st
      = if i = len - 1
        then parse_pattern_go buf len fuel (i + 1)
          { ppStore st (strndup buf st.start (i - st.start)) with
            start := i + 1, dest := none }
        else parse_pattern_go buf len fuel (i + 1) st := by
  rw [parse_pattern_go, if_pos hi]
  dsimp only
  rw [if_neg hc.2.1, if_neg hc.1, if_neg hc.2.2,
    if_neg (show ¬ ((getb buf i = 60 ∨ getb buf i = 62) ∧ getb buf (i + 1) = 61) by
      intro hcon
      rcases hcon.1 with h | h
      · exact hc.1 h
      · exact hc.2.2 h),
    if_neg (show ¬ ((0 : Nat) ≠ 0) by omega)]
  by_cases hend : i = len - 1
  · rw [if_pos (show Option.isSome (Prod.snd (st, (none : Option Dest))) = true
        ∨ i = len - 1 from Or.inr hend), if_pos hend]
  · rw [if_neg (show ¬ (Option.isSome (Prod.snd (st, (none : Option Dest))) = true
        ∨ i = len - 1) by simp [hend]), if_neg hend]

lemma parse_pattern_go_nocomp (buf : Bytes) (len : Nat) :
    ∀ (fuel i : Nat) (st : PPState),
      (∀ j, i ≤ j → j < len → getb buf j ≠ 60 ∧ getb buf j ≠ 61 ∧ getb buf j ≠ 62) →
      i < len → len ≤ fuel + i →
      parse_pattern_go buf len fuel i st
        = { ppStore st (strndup buf st.start (len - 1 - st.start)) with
            start := len, dest := none } := by
  intro fuel
  induction fuel with
  | zero =>
    intro i st _ h1 h2
    exact ((by omega : False)).elim
  | succ fuel ih =>
    intro i st hc hi hfuel
    rw [parse_pattern_go_step_nocomp buf len fuel i st hi (hc i (by omega) hi)]
    by_cases hend : i = len - 1
    · rw [if_pos hend]
      have h1 : i + 1 = len := by omega
      rw [h1, parse_pattern_go_at_end]
      have h2 : i - st.start = len - 1 - st.start := by omega
      rw [h2]
    · rw [if_neg hend]
      exact ih (i + 1) st (fun j hj1 hj2 => hc j (by omega) hj2) (by omega) (by omega)

lemma nul_first_sep_length : ∀ l : Bytes, (nul_first_sep l).length = l.length := by
  intro l
  induction l with
  | nil => rfl
  | cons c rest ih =>
    rw [nul_first_sep]
    split <;> simp [ih]

lemma nul_first_sep_mem : ∀ (l : Bytes) (c : Nat), c ∈ nul_first_sep l → c ∈ l ∨ c = 0 := by
  intro l
  induction l with
  | nil => intro c hc; exact absurd hc (by simp [nul_first_sep])
  | cons x rest ih =>
    intro c hc
    rw [nul_first_sep] at hc
    by_cases hx : x = 124
    · rw [if_pos hx] at hc
      rcases List.mem_cons.mp hc with h | h
      · right; exact h
      · left; simp [h]
    · rw [if_neg hx] at hc
      rcases List.mem_cons.mp hc with h | h
      · left; simp [h]
      · rcases ih c h with h2 | h2
        · left; simp [h2]
        · right; exact h2

lemma nul_first_sep_take_takeWhile : ∀ (l : Bytes) (m : Nat), (∀ c ∈ l, c ≠ 0) →
    ((nul_first_sep l).take m).takeWhile (fun c => c ≠ 0)
      = (l.take m).takeWhile (fun c => c ≠ 124) := by
  intro l
  induction l with
  | nil => intro m _; simp [nul_first_sep]
  | cons x rest ih =>
    intro m h0
    cases m with
    | zero => rfl
    | succ m =>
      by_cases hx : x = 124
      · rw [nul_first_sep, if_pos hx]
        subst hx
        simp [List.takeWhile]
      · rw [nul_first_sep, if_neg hx]
        have hx0 : x ≠ 0 := h0 x (by simp)
        rw [List.take_succ_cons, List.take_succ_cons, List.takeWhile_cons,
          List.takeWhile_cons, if_pos (by simpa using hx0), if_pos (by simpa using hx)]
        rw [ih m fun c hc2 => h0 c (by simp [hc2])]

/-- Amended claim C7: only a line with no comparator token ANYWHERE (the
scan covers the whole line, url and description fields included) yields a
name pattern with both bounds absent; the name pattern is then the text
before the first field separator, except that the line's final byte is cut
(`parse_pattern` stores up to index `len - 1` on the closing store). -/
theorem C7_amended_no_comparator_line (line : Bytes)
    (h0 : ∀ c ∈ line, c ≠ 0)
    (hc : ∀ c ∈ line, c ≠ 60 ∧ c ≠ 61 ∧ c ≠ 62) :
    (parse_line line).v1 = { version := none, type := 0 } ∧
      (parse_line line).v2 = { version := none, type := 0 } ∧
      (parse_line line).pkgname = (line.dropLast).takeWhile (fun c => c ≠ 124) := by
  cases line with
  | nil => refine ⟨rfl, rfl, rfl⟩
  | cons x rest =>
    set line := x :: rest with hline
    have hlen : 0 < line.length := by simp [hline]
    have hbuflen : (nul_first_sep line).length = line.length := nul_first_sep_length line
    have hnc : ∀ j, 0 ≤ j → j < line.length →
        getb (nul_first_sep line) j ≠ 60 ∧ getb (nul_first_sep line) j ≠ 61 ∧
          getb (nul_first_sep line) j ≠ 62 := by
      intro j _ hj
      have hjb : j < (nul_first_sep line).length := by omega
      have hmem : (nul_first_sep line).getD j 0 ∈ nul_first_sep line := by
        rw [getD_eq_getElem_gen hjb 0]
        exact List.getElem_mem hjb
      rcases nul_first_sep_mem line _ hmem with h | h
      · exact ⟨(hc _ h).1, (hc _ h).2.1, (hc _ h).2.2⟩
      · unfold getb
        rw [h]
        omega
    have hrun := parse_pattern_go_nocomp (nul_first_sep line) line.length
      line.length 0
      { pkgname := [], v1 := { version := none, type := 0 },
        v2 := { version := none, type := 0 }, start := 0,
        dest := some .pkgname, vslot := false }
      hnc hlen (by omega)
    have hpl : parse_line line
        = { pkgname := strndup (nul_first_sep line) 0 (line.length - 1 - 0),
            v1 := { version := none, type := 0 },
            v2 := { version := none, type := 0 },
            url := (strsep_fields line).get? 1,
            desc := (strsep_fields line).get? 2 } := by
      rw [parse_line, parse_pattern, hrun]
      rfl
    rw [hpl]
    refine ⟨rfl, rfl, ?_⟩
    show strndup (nul_first_sep line) 0 (line.length - 1 - 0) = _
    rw [strndup, List.drop_zero]
    have hdl : line.dropLast = line.take (line.length - 1) := List.dropLast_eq_take line
    rw [hdl]
    exact nul_first_sep_take_takeWhile line (line.length - 1) h0

/-- Witness for the amended C7: the comparator-free line `name|url|desc`
parses with both bounds absent and pattern `name`. -/
theorem C7_amended_no_comparator_line_witness :
    (parse_line (str "name|url|desc\n")).v1 = { version := none, type := 0 } ∧
      (parse_line (str "name|url|desc\n")).v2 = { version := none, type := 0 } ∧
      (parse_line (str "name|url|desc\n")).pkgname
        = ((str "name|url|desc\n").dropLast).takeWhile (fun c => c ≠ 124) :=
  C7_amended_no_comparator_line (str "name|url|desc\n") (by decide) (by decide)

/-! ### Field splitting and the trailing newline (claim C10) -/

lemma strsep_fields_append : ∀ (f rest : Bytes), 124 ∉ f →
    strsep_fields (f ++ 124 :: rest) = f :: strsep_fields rest := by
  intro f
  induction f with
  | nil => intro rest _; simp [strsep_fields]
  | cons c f ih =>
    intro rest hf
    have hc : c ≠ 124 := by
      intro hcon
      exact hf (by simp [hcon])
    rw [List.cons_append, strsep_fields, if_neg hc,
      ih rest (fun hcon => hf (by simp [hcon]))]

lemma strsep_fields_no_sep : ∀ f : Bytes, 124 ∉ f → strsep_fields f = [f] := by
  intro f
  induction f with
  | nil => intro _; rfl
  | cons c f ih =>
    intro hf
    have hc : c ≠ 124 := by
      intro hcon
      exact hf (by simp [hcon])
    rw [strsep_fields, if_neg hc, ih (fun hcon => hf (by simp [hcon]))]

lemma nul_first_sep_append : ∀ (f rest : Bytes), 124 ∉ f →
    nul_first_sep (f ++ 124 :: rest) = f ++ 0 :: rest := by
  intro f
  induction f with
  | nil => intro rest _; simp [nul_first_sep]
  | cons c f ih =>
    intro rest hf
    have hc : c ≠ 124 := by
      intro hcon
      exact hf (by simp [hcon])
    rw [List.cons_append, nul_first_sep, if_neg hc,
      ih rest (fun hcon => hf (by simp [hcon])), List.cons_append]

lemma mem_strndup {buf : Bytes} {s n c : Nat} (hc : c ∈ strndup buf s n) :
    c ∈ buf.take (s + n) := by
  have h1 : c ∈ (buf.drop s).take n := (List.takeWhile_sublist _).subset hc
  rw [List.take_drop] at h1
  exact List.drop_subset _ _ h1

lemma take_subset_take {m n : Nat} (h : m ≤ n) (l : Bytes) : l.take m ⊆ l.take n := by
  intro c hc
  rw [← Nat.min_eq_left h, ← List.take_take] at hc
  exact List.take_subset _ _ hc

lemma strndup_mem_bound {buf : Bytes} {s i len : Nat} (hi : i < len) :
    ∀ c ∈ strndup buf s (i - s), c ∈ buf.take (len - 1) := by
  intro c hc
  by_cases hs : s ≤ i
  · have h1 := mem_strndup hc
    have h2 : s + (i - s) = i := by omega
    rw [h2] at h1
    exact take_subset_take (by omega) buf h1
  · have : i - s = 0 := by omega
    rw [this] at hc
    exact absurd hc (by simp [strndup])

/-- The bound invariant of `parse_pattern`: every byte of every stored
field comes from the first `len - 1` bytes of the buffer — in particular
the line's final byte (the newline) never enters the name pattern or a
version bound. -/
def PFields (bound : Bytes) (st : PPState) : Prop :=
  (∀ c ∈ st.pkgname, c ∈ bound) ∧
    (∀ v, st.v1.version = some v → ∀ c ∈ v, c ∈ bound) ∧
    (∀ v, st.v2.version = some v → ∀ c ∈ v, c ∈ bound)

lemma ppSetType_fields {bound : Bytes} {st : PPState} (t : Nat)
    (h : PFields bound st) : PFields bound (ppSetType st t).1 := by
  unfold ppSetType
  split <;> exact ⟨h.1, h.2.1, h.2.2⟩

lemma ppStore_fields {bound : Bytes} {st : PPState} {v : Bytes}
    (h : PFields bound st) (hv : ∀ c ∈ v, c ∈ bound) :
    PFields bound (ppStore st v) := by
  unfold ppStore
  split
  · exact ⟨hv, h.2.1, h.2.2⟩
  · refine ⟨h.1, fun v2 hv2 c hc => ?_, h.2.2⟩
    injection hv2 with he
    exact hv c (he ▸ hc)
  · refine ⟨h.1, h.2.1, fun v2 hv2 c hc => ?_⟩
    injection hv2 with he
    exact hv c (he ▸ hc)
  · exact h

lemma parse_pattern_go_fields (buf : Bytes) (len : Nat) :
    ∀ (fuel i : Nat) (st : PPState), PFields (buf.take (len - 1)) st →
      PFields (buf.take (len - 1)) (parse_pattern_go buf len fuel i st) := by
  intro fuel
  induction fuel with
  | zero => intro i st h; exact h
  | succ fuel ih =>
    intro i st h
    rw [parse_pattern_go]
    by_cases hil : i < len
    · rw [if_pos hil]
      dsimp only
      split_ifs <;>
        apply ih <;>
        first
          | exact h
          | exact ppSetType_fields _ h
          | exact ppStore_fields h (strndup_mem_bound hil)
          | exact ppStore_fields (ppSetType_fields _ h) (strndup_mem_bound hil)
    · rw [if_neg hil]
      exact h

/-- Claim C10: for a newline-terminated advisory line with two or three
pipe-separated fields, the last populated field (the description with three
fields, the url with two) keeps the terminating newline in its stored
string, while the name pattern and the version bound values never contain
it. -/
theorem C10_trailing_newline (f0 f1 f2 : Bytes)
    (hf0 : ∀ c ∈ f0, c ≠ 124 ∧ c ≠ 10 ∧ c ≠ 0)
    (hf1 : ∀ c ∈ f1, c ≠ 124 ∧ c ≠ 10 ∧ c ≠ 0)
    (hf2 : ∀ c ∈ f2, c ≠ 124 ∧ c ≠ 10 ∧ c ≠ 0) :
    (parse_line (f0 ++ 124 :: (f1 ++ 124 :: (f2 ++ [10])))).desc = some (f2 ++ [10]) ∧
      (parse_line (f0 ++ 124 :: (f1 ++ 124 :: (f2 ++ [10])))).url = some f1 ∧
      10 ∉ (parse_line (f0 ++ 124 :: (f1 ++ 124 :: (f2 ++ [10])))).pkgname ∧
      (∀ v, (parse_line (f0 ++ 124 :: (f1 ++ 124 :: (f2 ++ [10])))).v1.version = some v →
        10 ∉ v) ∧
      (∀ v, (parse_line (f0 ++ 124 :: (f1 ++ 124 :: (f2 ++ [10])))).v2.version = some v →
        10 ∉ v) ∧
      (parse_line (f0 ++ 124 :: (f1 ++ [10]))).url = some (f1 ++ [10]) ∧
      (parse_line (f0 ++ 124 :: (f1 ++ [10]))).desc = none ∧
      10 ∉ (parse_line (f0 ++ 124 :: (f1 ++ [10]))).pkgname ∧
      (∀ v, (parse_line (f0 ++ 124 :: (f1 ++ [10]))).v1.version = some v → 10 ∉ v) ∧
      (∀ v, (parse_line (f0 ++ 124 :: (f1 ++ [10]))).v2.version = some v → 10 ∉ v) := by
  have hm0 : 124 ∉ f0 := fun hcon => (hf0 124 hcon).1 rfl
  have hm1 : 124 ∉ f1 := fun hcon => (hf1 124 hcon).1 rfl
  have hm2 : 124 ∉ f2 := fun hcon => (hf2 124 hcon).1 rfl
  have hfields3 : strsep_fields (f0 ++ 124 :: (f1 ++ 124 :: (f2 ++ [10])))
      = [f0, f1, f2 ++ [10]] := by
    rw [strsep_fields_append f0 _ hm0, strsep_fields_append f1 _ hm1,
      strsep_fields_no_sep (f2 ++ [10]) (by
        intro hcon
        rcases List.mem_append.mp hcon with h | h
        · exact hm2 h
        · simp at h)]
  have hfields2 : strsep_fields (f0 ++ 124 :: (f1 ++ [10])) = [f0, f1 ++ [10]] := by
    rw [strsep_fields_append f0 _ hm0,
      strsep_fields_no_sep (f1 ++ [10]) (by
        intro hcon
        rcases List.mem_append.mp hcon with h | h
        · exact hm1 h
        · simp at h)]
  have hten : ∀ (line : Bytes), line = f0 ++ 124 :: (f1 ++ 124 :: (f2 ++ [10])) ∨
      line = f0 ++ 124 :: (f1 ++ [10]) →
      10 ∉ (nul_first_sep line).take (line.length - 1) := by
    intro line hline
    have hshape : ∃ X : Bytes, nul_first_sep line = X ++ [10] ∧ 10 ∉ X := by
      rcases hline with hL | hL
      · refine ⟨f0 ++ 0 :: (f1 ++ 124 :: f2), ?_, ?_⟩
        · rw [hL, nul_first_sep_append f0 _ hm0]
          simp
        · intro hcon
          simp only [List.mem_append, List.mem_cons] at hcon
          rcases hcon with h | h
          · exact (hf0 10 h).2.1 rfl
          · rcases h with h | h
            · omega
            · rcases h with h2 | h2 | h2
              · exact (hf1 10 h2).2.1 rfl
              · omega
              · exact (hf2 10 h2).2.1 rfl
      · refine ⟨f0 ++ 0 :: f1, ?_, ?_⟩
        · rw [hL, nul_first_sep_append f0 _ hm0]
          simp
        · intro hcon
          simp only [List.mem_append, List.mem_cons] at hcon
          rcases hcon with h | h
          · exact (hf0 10 h).2.1 rfl
          · rcases h with h | h
            · omega
            · exact (hf1 10 h).2.1 rfl
    obtain ⟨X, hX, hXn⟩ := hshape
    have hlen : line.length - 1 = (nul_first_sep line).length - 1 := by
      rw [nul_first_sep_length]
    rw [hlen, ← List.dropLast_eq_take, hX, List.dropLast_concat]
    exact hXn
  have hfields : ∀ (line : Bytes), line = f0 ++ 124 :: (f1 ++ 124 :: (f2 ++ [10])) ∨
      line = f0 ++ 124 :: (f1 ++ [10]) →
      PFields ((nul_first_sep line).take (line.length - 1))
        (parse_pattern_go (nul_first_sep line) line.length line.length 0
          { pkgname := [], v1 := { version := none, type := 0 },
            v2 := { version := none, type := 0 }, start := 0,
            dest := some .pkgname, vslot := false }) := by
    intro line _
    refine parse_pattern_go_fields (nul_first_sep line) line.length line.length 0 _ ?_
    refine ⟨?_, ?_, ?_⟩
    · intro c hc
      cases hc
    · intro v hv
      simp at hv
    · intro v hv
      simp at hv
  refine ⟨?_, ?_, ?_, ?_, ?_, ?_, ?_, ?_, ?_, ?_⟩
  · show (strsep_fields _).get? 2 = _
    rw [hfields3]
    rfl
  · show (strsep_fields _).get? 1 = _
    rw [hfields3]
    rfl
  · intro hcon
    exact hten _ (Or.inl rfl) ((hfields _ (Or.inl rfl)).1 10 hcon)
  · intro v hv hcon
    exact hten _ (Or.inl rfl) ((hfields _ (Or.inl rfl)).2.1 v hv 10 hcon)
  · intro v hv hcon
    exact hten _ (Or.inl rfl) ((hfields _ (Or.inl rfl)).2.2 v hv 10 hcon)
  · show (strsep_fields _).get? 1 = _
    rw [hfields2]
    rfl
  · show (strsep_fields _).get? 2 = _
    rw [hfields2]
    rfl
  · intro hcon
    exact hten _ (Or.inr rfl) ((hfields _ (Or.inr rfl)).1 10 hcon)
  · intro v hv hcon
    exact hten _ (Or.inr rfl) ((hfields _ (Or.inr rfl)).2.1 v hv 10 hcon)
  · intro v hv hcon
    exact hten _ (Or.inr rfl) ((hfields _ (Or.inr rfl)).2.2 v hv 10 hcon)

/-- Witness for C10 at concrete fields `a|u|d` plus newline (three fields)
and `a|u` plus newline (two fields). -/
theorem C10_trailing_newline_witness :
    (parse_line (str "a" ++ 124 :: (str "u" ++ 124 :: (str "d" ++ [10])))).desc
        = some (str "d" ++ [10]) ∧
      (parse_line (str "a" ++ 124 :: (str "u" ++ 124 :: (str "d" ++ [10])))).url
        = some (str "u") ∧
      10 ∉ (parse_line (str "a" ++ 124 :: (str "u" ++ 124 :: (str "d" ++ [10])))).pkgname ∧
      (parse_line (str "a" ++ 124 :: (str "u" ++ [10]))).url = some (str "u" ++ [10]) ∧
      (parse_line (str "a" ++ 124 :: (str "u" ++ [10]))).desc = none :=
  ⟨(C10_trailing_newline (str "a") (str "u") (str "d")
      (by decide) (by decide) (by decide)).1,
   (C10_trailing_newline (str "a") (str "u") (str "d")
      (by decide) (by decide) (by decide)).2.1,
   (C10_trailing_newline (str "a") (str "u") (str "d")
      (by decide) (by decide) (by decide)).2.2.1,
   (C10_trailing_newline (str "a") (str "u") (str "d")
      (by decide) (by decide) (by decide)).2.2.2.2.2.1,
   (C10_trailing_newline (str "a") (str "u") (str "d")
      (by decide) (by decide) (by decide)).2.2.2.2.2.2.1⟩

end PkgAudit
